import Mathlib

/-!
The file find_path.c : command lookup and path canonicalisation

A shallow embedding of `find_path()` and `qualify()` of `src/find_path.c`.

* C strings are `List Char` (the terminating NUL is implicit, so a string never holds a NUL).
* The fixed-size buffers `fn`, `full`, `name`, `newname` are unbounded lists: writing past
  `MAXPATHLEN` is modelled as a longer list, so lengths can be stated and compared with the bound.
* The environment (`getenv`, `stat`, `lstat`, `readlink`, `getwd`/`getcwd`) is a `World` that stays
  fixed during a call.  Every query and every `perror` is recorded, in order, in a log.
* `exit(1)` is an outcome of its own, one per call site.
* `strdup` is taken to succeed, and `readlink` to succeed on a path `lstat` has just reported as a
  link.
* The `do ... while (end)` loop of `qualify` may run forever (a link cycle), so it is driven by
  fuel: `none` means that the fuel ran out before the loop ended.
-/

namespace FindPath

/-- A C string. -/
abbrev Path := List Char

/-- The `errno` values the code tells apart, and some of the others. -/
inductive Errno
  | ENOENT | ENOTDIR | EINVAL | EACCES | ENAMETOOLONG | ELOOP | EIO
  deriving DecidableEq, Repr

/-- What `stat(2)` or `lstat(2)` gives: `st_mode` on success, `errno` on failure. -/
inductive StatResult
  | ok (st_mode : Nat)
  | err (errno : Errno)
  deriving DecidableEq, Repr

/-- The environment of one call. `MAXPATHLEN` comes from `<sys/param.h>`. -/
structure World where
  MAXPATHLEN : Nat
  PATH : Option Path
  stat : Path → StatResult
  lstat : Path → StatResult
  readlink : Path → Path
  getwd : Option Path

/-- The three places that call `perror`. -/
inductive Warning
  | find_path_stat
  | qualify_stat
  | qualify_lstat
  deriving DecidableEq, Repr

/-- One observable action of the code. -/
inductive Event
  | getenv
  | stat (p : Path)
  | lstat (p : Path)
  | readlink (p : Path)
  | getwd
  | perror (m : Warning)
  deriving DecidableEq, Repr

/-- How a call ends. -/
inductive Outcome
  /-- A pointer to the path is returned. -/
  | result (p : Path)
  /-- NULL is returned. -/
  | not_found
  /-- Line 88: "path too long: file", then `exit(1)`. -/
  | path_too_long (file : Path)
  /-- Line 255: "path too long: newname/end", then `exit(1)`. -/
  | expansion_too_long (newname rest : Path)
  /-- Line 197: "Can't get working directory!", then `exit(1)`. -/
  | no_working_directory
  deriving DecidableEq, Repr

/-- Both "path too long" exits. -/
def Outcome.isPathTooLong : Outcome → Bool
  | .path_too_long _ => true
  | .expansion_too_long _ _ => true
  | _ => false

/-- A finished call: its outcome and everything it did. -/
structure Run where
  out : Outcome
  log : List Event
  deriving DecidableEq, Repr

/-- `S_IFMT` of `<sys/stat.h>`. -/
def S_IFMT : Nat := 0o170000

/-- `S_IFLNK` of `<sys/stat.h>`. -/
def S_IFLNK : Nat := 0o120000

/-- `(statbuf.st_mode & S_IFMT) == S_IFLNK`. -/
def is_link (st_mode : Nat) : Bool := st_mode &&& S_IFMT == S_IFLNK

/-- `statbuf.st_mode & 0000111`. -/
def has_exec_bit (st_mode : Nat) : Bool := st_mode &&& 0o111 != 0

/-- `errno != ENOENT && errno != ENOTDIR && errno != EINVAL`. -/
def unexpected (e : Errno) : Bool := e != .ENOENT && e != .ENOTDIR && e != .EINVAL

/-- `p = index(s, c); if (p) *p = 0`: the string up to the first `c`, and the string at `p + 1`
(`none` when `p` is NULL). -/
def index_split (c : Char) : Path → Path × Option Path
  | [] => ([], none)
  | x :: xs =>
    if x = c then ([], some xs)
    else ((x :: (index_split c xs).1), (index_split c xs).2)

/-- `if ((tmp = rindex(full, '/'))) *tmp = '\0'`: cut at the last `/`, if there is one. -/
def rindex_cut : Path → Path
  | [] => []
  | x :: xs =>
    if '/' ∈ xs then x :: rindex_cut xs
    else if x = '/' then [] else x :: xs

/-- The pieces of a string between the occurrences of `c`. -/
def split_on (c : Char) : Path → List Path
  | [] => [[]]
  | x :: xs =>
    if x = c then [] :: split_on c xs
    else match split_on c xs with
      | [] => [[x]]
      | t :: ts => (x :: t) :: ts

/-! ## qualify -/

/-- The variables of the loop of `qualify` at the top of an iteration: `cur` is the string `beg`
is about to point to (`end + 1` in the old `name`, or the fresh `name`), `full` the resolved
buffer. -/
structure QState where
  cur : Path
  full : Path
  log : List Event
  deriving DecidableEq, Repr

/-- One iteration either goes round again or leaves the function. -/
inductive QStep
  | next (s : QState)
  | done (r : Run)
  deriving DecidableEq, Repr

/-- Lines 220-227: what the component `beg` does to `full`. -/
def qualify_component (full comp : Path) : Path :=
  if comp = ['.'] then full
  else if comp = ['.', '.'] then rindex_cut full
  else full ++ '/' :: comp

/-- The test `while (end)`, and lines 275-278 once the loop is left. -/
def qualify_while (rest : Option Path) (full : Path) (log : List Event) : QStep :=
  match rest with
  | some r => .next ⟨r, full, log⟩
  | none => .done ⟨.result (if full = [] then ['/'] else full), log⟩

/-- Line 248: `readlink(full, newname, sizeof(newname))`, at most `MAXPATHLEN + 1` bytes. -/
def link_target (w : World) (full : Path) : Path :=
  (w.readlink full).take (w.MAXPATHLEN + 1)

/-- Lines 259-260: the new name, the target followed by `/` and what is left of the old name. -/
def link_name (w : World) (rest : Option Path) (full : Path) : Path :=
  match rest with
  | some r => link_target w full ++ '/' :: r
  | none => link_target w full

/-- Lines 243-269: `full` names a symbolic link. -/
def qualify_link (w : World) (rest : Option Path) (full : Path) (log : List Event) : QStep :=
  let log1 := log ++ [Event.readlink full]
  let after : QStep :=
    .next ⟨link_name w rest full,
      if (link_name w rest full).head? = some '/' then [] else rindex_cut full, log1⟩
  match rest with
  | some r =>
    if (link_target w full).length + r.length ≥ w.MAXPATHLEN then
      .done ⟨.expansion_too_long (link_target w full) r, log1⟩
    else after
  | none => after

/-- The component `beg` points to once line 216 has cut it off. -/
def QState.comp (s : QState) : Path := (index_split '/' s.cur).1

/-- The string at `end + 1`, or `none` when `end` is NULL. -/
def QState.rest (s : QState) : Option Path := (index_split '/' s.cur).2

/-- The buffer `full` once lines 218-227 have dealt with the component. -/
def QState.walked (s : QState) : Path := qualify_component s.full s.comp

/-- The body of the loop, lines 207-269, followed by the test `while (end)`. -/
def qualify_step (w : World) (s : QState) : QStep :=
  if s.comp = [] ∧ s.rest.isSome then
    qualify_while s.rest s.full s.log
  else if s.walked = [] then
    qualify_while s.rest s.walked s.log
  else
    match w.lstat s.walked with
    | .err _ =>
      .done ⟨.not_found, s.log ++ [Event.lstat s.walked, Event.perror .qualify_lstat]⟩
    | .ok m =>
      if is_link m then qualify_link w s.rest s.walked (s.log ++ [Event.lstat s.walked])
      else qualify_while s.rest s.walked (s.log ++ [Event.lstat s.walked])

/-- The loop of `qualify`, for at most `fuel` iterations. -/
def qualify_loop (w : World) : Nat → QState → Option Run
  | 0, _ => none
  | fuel + 1, s =>
    match qualify_step w s with
    | .next s1 => qualify_loop w fuel s1
    | .done r => some r

/-- The state at the top of iteration `k` (counted from 0), if the loop gets that far. -/
def qualify_iter (w : World) : Nat → QState → Option QState
  | 0, s => some s
  | k + 1, s =>
    match qualify_step w s with
    | .next s1 => qualify_iter w k s1
    | .done _ => none

/-- Lines 179-204: the `stat` of the argument and the seeding of `full`. The log given is what
the caller has done so far. -/
def qualify_start (w : World) (n : Path) (log : List Event) : QStep :=
  match w.stat n with
  | .err e =>
    .done ⟨.not_found,
      log ++ Event.stat n :: (if e ≠ .ENOENT then [Event.perror .qualify_stat] else [])⟩
  | .ok _ =>
    if n.head? ≠ some '/' then
      match w.getwd with
      | none => .done ⟨.no_working_directory, log ++ [Event.stat n, Event.getwd]⟩
      | some wd => .next ⟨n, wd, log ++ [Event.stat n, Event.getwd]⟩
    else .next ⟨n, [], log ++ [Event.stat n]⟩

/-- The function `qualify`, called after the events of `log`. -/
def qualify_from (fuel : Nat) (w : World) (n : Path) (log : List Event) : Option Run :=
  match qualify_start w n log with
  | .next s => qualify_loop w fuel s
  | .done r => some r

/-- The function `qualify(n)`. -/
def qualify (fuel : Nat) (w : World) (n : Path) : Option Run :=
  qualify_from fuel w n []

/-! ## find_path -/

/-- The loop of lines 109-137 over the tokens of PATH that are left, then lines 139-157. -/
def find_path_loop (fuel : Nat) (w : World) (file : Path) :
    List Path → Bool → List Event → Option Run
  | [], checkdot, log =>
    if checkdot then
      let fn := '.' :: '/' :: file
      match w.stat fn with
      | .ok m =>
        if has_exec_bit m then qualify_from fuel w fn (log ++ [Event.stat fn])
        else some ⟨.not_found, log ++ [Event.stat fn]⟩
      | .err e =>
        some ⟨.not_found,
          log ++ Event.stat fn :: (if unexpected e then [Event.perror .find_path_stat] else [])⟩
    else some ⟨.not_found, log⟩
  | t :: ts, checkdot, log =>
    if t = [] ∨ t = ['.'] then find_path_loop fuel w file ts true log
    else
      let fn := t ++ '/' :: file
      match w.stat fn with
      | .ok m =>
        if has_exec_bit m then qualify_from fuel w fn (log ++ [Event.stat fn])
        else find_path_loop fuel w file ts checkdot (log ++ [Event.stat fn])
      | .err e =>
        find_path_loop fuel w file ts checkdot
          (log ++ Event.stat fn :: (if unexpected e then [Event.perror .find_path_stat] else []))

/-- The function `find_path(file)`; `fuel` bounds the loop of the `qualify` it may call. -/
def find_path (fuel : Nat) (w : World) (file : Path) : Option Run :=
  if file.length > w.MAXPATHLEN then some ⟨.path_too_long file, []⟩
  else if '/' ∈ file then qualify fuel w file
  else
    match w.PATH with
    | none => some ⟨.not_found, [Event.getenv]⟩
    | some path => find_path_loop fuel w file (split_on ':' path) false [Event.getenv]


/-! ## Notions used to state the properties -/

/-- The test of lines 128-129 and 148-149: `stat` succeeds and an execute bit is set. -/
def executable (w : World) (fn : Path) : Bool :=
  match w.stat fn with
  | .ok m => has_exec_bit m
  | .err _ => false

/-- The test of line 117: the token is empty or is exactly `.`. -/
def deferred (t : Path) : Bool := t = [] ∨ t = ['.']

/-- A run that comes after the events of `log`. -/
def Run.after (log : List Event) (r : Run) : Run := ⟨r.out, log ++ r.log⟩

/-- A step that comes after the events of `log`. -/
def QStep.after (log : List Event) : QStep → QStep
  | .next s => .next ⟨s.cur, s.full, log ++ s.log⟩
  | .done r => .done (r.after log)

/-- `./command`, the candidate of line 143. -/
def dot_candidate (file : Path) : Path := '.' :: '/' :: file

/-- The candidates in the order of the spec: the tokens that are not deferred, in the order of
PATH, each followed by `/` and the command; then `./command`, if `checkdot` was set already or a
token is deferred. -/
def search_order_from (file : Path) (tokens : List Path) (checkdot : Bool) : List Path :=
  (tokens.filter (fun t => !deferred t)).map (fun t => t ++ '/' :: file) ++
    (if checkdot || tokens.any deferred then [dot_candidate file] else [])

/-- The candidates of a whole PATH, in the order of the spec. -/
def search_order (file : Path) (tokens : List Path) : List Path :=
  search_order_from file tokens false

/-- What querying the candidates in turn leaves in the log: one `stat` each, and a `perror` after
a failure of the unexpected class, up to and including the first candidate that matches. -/
def search_events (w : World) : List Path → List Event
  | [] => []
  | c :: cs =>
    match w.stat c with
    | .ok m => Event.stat c :: (if has_exec_bit m then [] else search_events w cs)
    | .err e =>
      Event.stat c ::
        ((if unexpected e then [Event.perror .find_path_stat] else []) ++ search_events w cs)

/-- The search worded as in the spec: the first candidate of the order that matches is
canonicalized, and there is no result when none matches. -/
def search_spec (fuel : Nat) (w : World) (log : List Event) (cands : List Path) : Option Run :=
  match cands.find? (executable w) with
  | some fn => (qualify fuel w fn).map (Run.after (log ++ search_events w cands))
  | none => some ⟨.not_found, log ++ search_events w cands⟩

/-- The buffer is empty or begins with `/`. -/
def empty_or_rooted (p : Path) : Prop := p = [] ∨ p.head? = some '/'

instance (p : Path) : Decidable (empty_or_rooted p) := by
  unfold empty_or_rooted; infer_instance

/-- No `/`-separated component of the path is `.` or `..`. -/
def no_dot_component (p : Path) : Prop :=
  ∀ c ∈ split_on '/' p, c ≠ ['.'] ∧ c ≠ ['.', '.']

instance (p : Path) : Decidable (no_dot_component p) := by
  unfold no_dot_component; infer_instance

/-- The non-empty initial segments of a path that end at a component boundary: the path itself
and every segment that is followed by a `/`. For `/a/b` these are `/a` and `/a/b`. -/
def stems (p : Path) : List Path :=
  p.inits.filter (fun q => q ≠ [] ∧ (q = p ∨ (p.drop q.length).head? = some '/'))

/-- The query `lstat` succeeds on the path and does not report a symbolic link. -/
def not_link (w : World) (q : Path) : Bool :=
  match w.lstat q with
  | .ok m => !is_link m
  | .err _ => false

/-- The path `/`, `/..`, `/../..`, ... with `k` components `..`. -/
def up_path (k : Nat) : Path :=
  if k = 0 then ['/'] else (List.replicate k ['/', '.', '.']).flatten

/-- The absolute path `/c1/c2/.../cn` with the components `cs`. -/
def join_path (cs : List Path) : Path := (cs.map (fun c => '/' :: c)).flatten

/-- Two answers of `stat` that differ at most in the `errno` of a failure. -/
def same_up_to_errno (a b : StatResult) : Prop :=
  match a, b with
  | .ok m, .ok m1 => m = m1
  | .err _, .err _ => True
  | _, _ => False

/-- Two answers of `stat` that differ at most in the mode bits outside `0111`. -/
def same_exec_bits (a b : StatResult) : Prop :=
  match a, b with
  | .ok m, .ok m1 => m &&& 0o111 = m1 &&& 0o111
  | .err e, .err e1 => e = e1
  | _, _ => False

/-- `S_IFDIR` of `<sys/stat.h>`. -/
def S_IFDIR : Nat := 0o040000

/-! ## Sample environments -/

/-- Only `/bin/ls` exists; PATH is `/usr/bin:/bin`. -/
def w_bin : World :=
  { MAXPATHLEN := 1024
    PATH := some "/usr/bin:/bin".toList
    stat := fun p => if p = "/bin/ls".toList then .ok 0o100755 else .err .ENOENT
    lstat := fun p =>
      if p = "/bin".toList then .ok 0o040755
      else if p = "/bin/ls".toList then .ok 0o100755
      else .err .ENOENT
    readlink := fun _ => []
    getwd := some "/home/u".toList }

/-- PATH is `.:/bin`; both `./ls` and `/bin/ls` exist and can be executed. -/
def w_dot : World :=
  { MAXPATHLEN := 1024
    PATH := some ".:/bin".toList
    stat := fun p =>
      if p = "/bin/ls".toList then .ok 0o100755
      else if p = "./ls".toList then .ok 0o100755
      else .err .ENOENT
    lstat := fun p =>
      if p = "/bin".toList then .ok 0o040755
      else if p = "/bin/ls".toList then .ok 0o100755
      else if p = "/home/u".toList then .ok 0o040755
      else if p = "/home/u/ls".toList then .ok 0o100755
      else .err .ENOENT
    readlink := fun _ => []
    getwd := some "/home/u".toList }

/-- Everything exists; `/home/u/bin` is a symbolic link to `/bin`, nothing else is a link; PATH
is not set and the working directory is `/home/u`. -/
def w_home : World :=
  { MAXPATHLEN := 1024
    PATH := none
    stat := fun _ => .ok 0o100755
    lstat := fun p => if p = "/home/u/bin".toList then .ok 0o120777 else .ok 0o040755
    readlink := fun p => if p = "/home/u/bin".toList then "/bin".toList else []
    getwd := some "/home/u".toList }

/-- A small bound, `MAXPATHLEN = 4`. `stat` fails with ENAMETOOLONG on `/bbbb` and succeeds on
everything else; `lstat` reports plain files everywhere. -/
def w_small : World :=
  { MAXPATHLEN := 4
    PATH := some "/bin".toList
    stat := fun p => if p = "/bbbb".toList then .err .ENAMETOOLONG else .ok 0o100755
    lstat := fun _ => .ok 0o100755
    readlink := fun _ => []
    getwd := some "/".toList }

/-- The working directory is the root `/`; everything exists and nothing is a link. -/
def w_root : World :=
  { MAXPATHLEN := 1024
    PATH := some ".".toList
    stat := fun _ => .ok 0o100755
    lstat := fun _ => .ok 0o100755
    readlink := fun _ => []
    getwd := some "/".toList }

/-- The working directory is `/w`; `/w/a` and `/w/a/c` exist, `/w/a/b` does not: every query on
a path through `b` answers ENOENT. -/
def w_nob : World :=
  { MAXPATHLEN := 1024
    PATH := none
    stat := fun p =>
      if p = "a".toList then .ok 0o040755
      else if p = "a/c".toList then .ok 0o100644
      else .err .ENOENT
    lstat := fun p =>
      if p = "/w".toList then .ok 0o040755
      else if p = "/w/a".toList then .ok 0o040755
      else if p = "/w/a/c".toList then .ok 0o100644
      else .err .ENOENT
    readlink := fun _ => []
    getwd := some "/w".toList }

/-- A small bound, `MAXPATHLEN = 8`; `/l` is a symbolic link to `/dd`, and `/dd/l2` a symbolic
link to `e`; everything else exists and is no link. -/
def w_link : World :=
  { MAXPATHLEN := 8
    PATH := none
    stat := fun _ => .ok 0o100755
    lstat := fun p =>
      if p = "/l".toList then .ok 0o120777
      else if p = "/dd/l2".toList then .ok 0o120777
      else .ok 0o040755
    readlink := fun p =>
      if p = "/l".toList then "/dd".toList
      else if p = "/dd/l2".toList then "e".toList
      else []
    getwd := some "/".toList }

/-- A small bound, `MAXPATHLEN = 4`, and a working directory `/abc` of exactly that length;
everything exists and nothing is a link. -/
def w_deep : World :=
  { MAXPATHLEN := 4
    PATH := none
    stat := fun _ => .ok 0o100755
    lstat := fun _ => .ok 0o100755
    readlink := fun _ => []
    getwd := some "/abc".toList }

/-- As `w_bin`, but a failing `stat` answers EACCES instead of ENOENT. -/
def stat_eacces : Path → StatResult :=
  fun p => if p = "/bin/ls".toList then .ok 0o100755 else .err .EACCES

/-- As `w_bin`, but `/bin/ls` is a directory with mode 0755. -/
def stat_directory : Path → StatResult :=
  fun p => if p = "/bin/ls".toList then .ok 0o040755 else .err .ENOENT

/-- The path `/d/l` is a symbolic link with an empty target; everything else exists and is no
link. -/
def w_empty : World :=
  { MAXPATHLEN := 1024
    PATH := none
    stat := fun _ => .ok 0o100755
    lstat := fun p => if p = "/d/l".toList then .ok 0o120777 else .ok 0o040755
    readlink := fun _ => []
    getwd := some "/".toList }

/-! ## The loop of qualify, step by step -/

theorem qualify_loop_induct (w : World) (P : QState → Prop) (Q : Run → Prop)
    (hnext : ∀ s s1, P s → qualify_step w s = .next s1 → P s1)
    (hdone : ∀ s r, P s → qualify_step w s = .done r → Q r) :
    ∀ fuel s r, P s → qualify_loop w fuel s = some r → Q r := by
  intro fuel
  induction fuel with
  | zero => intro s r _ h; simp [qualify_loop] at h
  | succ k ih =>
    intro s r hP h
    unfold qualify_loop at h
    cases hs : qualify_step w s with
    | next s1 =>
      rw [hs] at h
      exact ih s1 r (hnext s s1 hP hs) h
    | done r1 =>
      rw [hs] at h
      simp only [Option.some.injEq] at h
      subst h
      exact hdone s r1 hP hs

theorem qualify_iter_induct (w : World) (P : QState → Prop)
    (hnext : ∀ s s1, P s → qualify_step w s = .next s1 → P s1) :
    ∀ k s s1, P s → qualify_iter w k s = some s1 → P s1 := by
  intro k
  induction k with
  | zero => intro s s1 hP h; simp [qualify_iter] at h; subst h; exact hP
  | succ k ih =>
    intro s s1 hP h
    unfold qualify_iter at h
    cases hs : qualify_step w s with
    | next s2 =>
      rw [hs] at h
      exact ih s2 s1 (hnext s s2 hP hs) h
    | done r1 =>
      rw [hs] at h
      simp at h

/-- The ways an iteration goes round again. -/
theorem qualify_step_next {w : World} {s s1 : QState} (h : qualify_step w s = .next s1) :
    (∃ r, s.rest = some r ∧ s1.cur = r ∧
      ((s.comp = [] ∧ s1.full = s.full ∧ s1.log = s.log) ∨
       (s.walked = [] ∧ s1.full = [] ∧ s1.log = s.log) ∨
       (∃ m, w.lstat s.walked = .ok m ∧ is_link m = false ∧ s1.full = s.walked ∧
          s.walked ≠ [] ∧ s1.log = s.log ++ [Event.lstat s.walked])))
    ∨
    (∃ m, s.walked ≠ [] ∧ w.lstat s.walked = .ok m ∧ is_link m = true ∧
       s1.cur = link_name w s.rest s.walked ∧
       s1.full = (if s1.cur.head? = some '/' then [] else rindex_cut s.walked) ∧
       s1.log = s.log ++ [Event.lstat s.walked, Event.readlink s.walked]) := by
  unfold qualify_step at h
  split at h
  · rename_i hc
    left
    obtain ⟨hc1, hc2⟩ := hc
    cases hr : s.rest with
    | none => rw [hr] at hc2; simp at hc2
    | some r =>
      rw [hr] at h
      simp only [qualify_while, QStep.next.injEq] at h
      subst h
      exact ⟨r, rfl, rfl, Or.inl ⟨hc1, rfl, rfl⟩⟩
  · split at h
    · rename_i hf
      left
      cases hr : s.rest with
      | none => rw [hr] at h; simp [qualify_while] at h
      | some r =>
        rw [hr] at h
        simp only [qualify_while, QStep.next.injEq] at h
        subst h
        exact ⟨r, rfl, rfl, Or.inr (Or.inl ⟨hf, hf, rfl⟩)⟩
    · rename_i hf
      split at h
      · simp at h
      · rename_i m hm
        split at h
        · rename_i hl
          right
          refine ⟨m, hf, hm, hl, ?_⟩
          unfold qualify_link at h
          simp only at h
          cases hr : s.rest with
          | none =>
            rw [hr] at h
            simp only [QStep.next.injEq] at h
            subst h
            simp
          | some r =>
            rw [hr] at h
            simp only at h
            split at h
            · simp at h
            · simp only [QStep.next.injEq] at h
              subst h
              simp
        · rename_i hl
          left
          cases hr : s.rest with
          | none => rw [hr] at h; simp [qualify_while] at h
          | some r =>
            rw [hr] at h
            simp only [qualify_while, QStep.next.injEq] at h
            subst h
            exact ⟨r, rfl, rfl, Or.inr (Or.inr ⟨m, hm, by simpa using hl, rfl, hf, rfl⟩)⟩

/-- The ways an iteration leaves the function. -/
theorem qualify_step_done {w : World} {s : QState} {r : Run} (h : qualify_step w s = .done r) :
    (s.rest = none ∧ s.walked = [] ∧ r = ⟨.result ['/'], s.log⟩) ∨
    (s.rest = none ∧ s.walked ≠ [] ∧ ∃ m, w.lstat s.walked = .ok m ∧ is_link m = false ∧
      r = ⟨.result s.walked, s.log ++ [Event.lstat s.walked]⟩) ∨
    (s.walked ≠ [] ∧ ∃ e, w.lstat s.walked = .err e ∧
      r = ⟨.not_found, s.log ++ [Event.lstat s.walked, Event.perror .qualify_lstat]⟩) ∨
    (s.walked ≠ [] ∧ ∃ m rr, w.lstat s.walked = .ok m ∧ is_link m = true ∧
      s.rest = some rr ∧ w.MAXPATHLEN ≤ (link_target w s.walked).length + rr.length ∧
      r = ⟨.expansion_too_long (link_target w s.walked) rr,
        s.log ++ [Event.lstat s.walked, Event.readlink s.walked]⟩) := by
  unfold qualify_step at h
  split at h
  · rename_i hc
    obtain ⟨_, hc2⟩ := hc
    cases hr : s.rest with
    | none => rw [hr] at hc2; simp at hc2
    | some r => rw [hr] at h; simp [qualify_while] at h
  · split at h
    · rename_i hf
      cases hr : s.rest with
      | none =>
        rw [hr] at h
        simp only [qualify_while, QStep.done.injEq] at h
        subst h
        left
        simp [hf]
      | some r => rw [hr] at h; simp [qualify_while] at h
    · rename_i hf
      split at h
      · rename_i e he
        simp only [QStep.done.injEq] at h
        subst h
        right; right; left
        exact ⟨hf, e, he, rfl⟩
      · rename_i m hm
        split at h
        · rename_i hl
          right; right; right
          unfold qualify_link at h
          simp only at h
          cases hr : s.rest with
          | none => rw [hr] at h; simp at h
          | some rr =>
            rw [hr] at h
            simp only at h
            split at h
            · rename_i hlen
              simp only [QStep.done.injEq] at h
              subst h
              exact ⟨hf, m, rr, hm, hl, rfl, hlen, by simp⟩
            · simp at h
        · rename_i hl
          cases hr : s.rest with
          | none =>
            rw [hr] at h
            simp only [qualify_while, QStep.done.injEq] at h
            subst h
            right; left
            exact ⟨rfl, hf, m, hm, by simpa using hl, by simp [hf]⟩
          | some r => rw [hr] at h; simp [qualify_while] at h

/-! ## The environment and the log -/

theorem qualify_step_after (w : World) (c f : Path) (l0 l : List Event) :
    qualify_step w ⟨c, f, l0 ++ l⟩ = (qualify_step w ⟨c, f, l⟩).after l0 := by
  unfold qualify_step
  simp only [QState.comp, QState.rest, QState.walked]
  split
  · cases (index_split '/' c).2 <;> simp [qualify_while, QStep.after, Run.after]
  · split
    · cases (index_split '/' c).2 <;> simp [qualify_while, QStep.after, Run.after]
    · cases w.lstat (qualify_component f (index_split '/' c).1) with
      | err e => simp [QStep.after, Run.after]
      | ok m =>
        simp only
        split
        · unfold qualify_link
          cases (index_split '/' c).2 with
          | none => simp [QStep.after, Run.after]
          | some r =>
            simp only
            split <;> simp [QStep.after, Run.after]
        · cases (index_split '/' c).2 <;> simp [qualify_while, QStep.after, Run.after]

theorem qualify_loop_after (w : World) (l0 : List Event) :
    ∀ (fuel : Nat) (c f : Path) (l : List Event),
      qualify_loop w fuel ⟨c, f, l0 ++ l⟩ = (qualify_loop w fuel ⟨c, f, l⟩).map (Run.after l0) := by
  intro fuel
  induction fuel with
  | zero => intro c f l; simp [qualify_loop]
  | succ k ih =>
    intro c f l
    unfold qualify_loop
    rw [qualify_step_after]
    cases qualify_step w ⟨c, f, l⟩ with
    | next s => simp only [QStep.after]; exact ih s.cur s.full s.log
    | done r => simp [QStep.after]

theorem qualify_start_after (w : World) (n : Path) (log : List Event) :
    qualify_start w n log = (qualify_start w n []).after log := by
  unfold qualify_start
  cases w.stat n with
  | err e => simp [QStep.after, Run.after]
  | ok m =>
    by_cases hn : n.head? = some '/'
    · simp [hn, QStep.after]
    · cases w.getwd <;> simp [hn, QStep.after, Run.after]

/-- The ways `qualify` enters its loop. -/
theorem qualify_start_next {w : World} {n : Path} {log : List Event} {s : QState}
    (h : qualify_start w n log = .next s) :
    (∃ m, w.stat n = .ok m) ∧ s.cur = n ∧
    ((n.head? = some '/' ∧ s.full = [] ∧ s.log = log ++ [Event.stat n]) ∨
     (n.head? ≠ some '/' ∧ w.getwd = some s.full ∧
        s.log = log ++ [Event.stat n, Event.getwd])) := by
  unfold qualify_start at h
  cases hst : w.stat n with
  | err e => rw [hst] at h; simp at h
  | ok m =>
    rw [hst] at h
    refine ⟨⟨m, rfl⟩, ?_⟩
    by_cases hn : n.head? = some '/'
    · simp only [hn, ne_eq, not_true_eq_false, ↓reduceIte, QStep.next.injEq] at h
      subst h
      exact ⟨rfl, Or.inl ⟨hn, rfl, rfl⟩⟩
    · cases hwd : w.getwd with
      | none => rw [hwd] at h; simp [hn] at h
      | some wd =>
        rw [hwd] at h
        simp only [hn, ne_eq, not_false_eq_true, ↓reduceIte, QStep.next.injEq] at h
        subst h
        exact ⟨rfl, Or.inr ⟨hn, rfl, rfl⟩⟩

/-- The ways `qualify` ends before its loop. -/
theorem qualify_start_done {w : World} {n : Path} {log : List Event} {r : Run}
    (h : qualify_start w n log = .done r) :
    (∃ e, w.stat n = .err e ∧ r = ⟨.not_found,
        log ++ Event.stat n :: (if e ≠ .ENOENT then [Event.perror .qualify_stat] else [])⟩) ∨
    ((∃ m, w.stat n = .ok m) ∧ n.head? ≠ some '/' ∧ w.getwd = none ∧
      r = ⟨.no_working_directory, log ++ [Event.stat n, Event.getwd]⟩) := by
  unfold qualify_start at h
  cases hst : w.stat n with
  | err e =>
    rw [hst] at h
    simp only [QStep.done.injEq] at h
    subst h
    exact Or.inl ⟨e, rfl, rfl⟩
  | ok m =>
    rw [hst] at h
    right
    refine ⟨⟨m, rfl⟩, ?_⟩
    by_cases hn : n.head? = some '/'
    · simp [hn] at h
    · cases hwd : w.getwd with
      | none =>
        rw [hwd] at h
        simp only [hn, ne_eq, not_false_eq_true, ↓reduceIte, QStep.done.injEq] at h
        subst h
        exact ⟨hn, rfl, rfl⟩
      | some wd => rw [hwd] at h; simp [hn] at h

/-- A result of `qualify` comes out of its loop. -/
theorem qualify_result_from_loop {fuel : Nat} {w : World} {n p : Path}
    (h : (qualify fuel w n).map Run.out = some (.result p)) :
    ∃ s0 r, qualify_start w n [] = .next s0 ∧ qualify_loop w fuel s0 = some r ∧
      r.out = .result p := by
  simp only [Option.map_eq_some'] at h
  obtain ⟨r, hr, hout⟩ := h
  unfold qualify qualify_from at hr
  cases h0 : qualify_start w n [] with
  | done r1 =>
    rw [h0] at hr
    simp only [Option.some.injEq] at hr
    subst hr
    rcases qualify_start_done h0 with ⟨e, _, h2⟩ | ⟨_, _, _, h2⟩ <;> subst h2 <;>
      exact Outcome.noConfusion hout
  | next s0 =>
    rw [h0] at hr
    exact ⟨s0, r, rfl, hr, hout⟩

theorem qualify_from_after (fuel : Nat) (w : World) (n : Path) (log : List Event) :
    qualify_from fuel w n log = (qualify fuel w n).map (Run.after log) := by
  unfold qualify qualify_from
  rw [qualify_start_after]
  cases qualify_start w n [] with
  | next s =>
    simp only [QStep.after]
    exact qualify_loop_after w log fuel s.cur s.full s.log
  | done r => simp [QStep.after]

theorem qualify_loop_PATH (w : World) (path : Option Path) :
    ∀ (fuel : Nat) (s : QState),
      qualify_loop { w with PATH := path } fuel s = qualify_loop w fuel s := by
  intro fuel
  induction fuel with
  | zero => intro s; rfl
  | succ k ih =>
    intro s
    unfold qualify_loop
    have hs : qualify_step { w with PATH := path } s = qualify_step w s := rfl
    rw [hs]
    cases qualify_step w s with
    | next s1 => exact ih s1
    | done r => rfl

theorem qualify_PATH (fuel : Nat) (w : World) (path : Option Path) (n : Path) :
    qualify fuel { w with PATH := path } n = qualify fuel w n := by
  unfold qualify qualify_from
  have hs : qualify_start { w with PATH := path } n [] = qualify_start w n [] := rfl
  rw [hs]
  cases qualify_start w n [] with
  | next s => exact qualify_loop_PATH w path fuel s
  | done r => rfl

theorem qualify_loop_no_getenv (w : World) (fuel : Nat) (s : QState) (r : Run)
    (hs : Event.getenv ∉ s.log) (h : qualify_loop w fuel s = some r) :
    Event.getenv ∉ r.log := by
  refine qualify_loop_induct w (fun s => Event.getenv ∉ s.log) (fun r => Event.getenv ∉ r.log)
    ?_ ?_ fuel s r hs h
  · intro s s1 hP h1
    rcases qualify_step_next h1 with ⟨r, _, _, h2 | h2 | ⟨m, _, _, _, _, h2⟩⟩ |
      ⟨m, _, _, _, _, _, h2⟩
    · rw [h2.2.2]; exact hP
    · rw [h2.2.2]; exact hP
    · rw [h2]; simpa using hP
    · rw [h2]; simpa using hP
  · intro s r hP h1
    rcases qualify_step_done h1 with ⟨_, _, h2⟩ | ⟨_, _, m, _, _, h2⟩ | ⟨_, e, _, h2⟩ |
      ⟨_, m, rr, _, _, _, _, h2⟩ <;> subst h2 <;> simpa using hP

theorem qualify_no_getenv (fuel : Nat) (w : World) (n : Path) (r : Run)
    (h : qualify fuel w n = some r) : Event.getenv ∉ r.log := by
  unfold qualify qualify_from at h
  cases hs : qualify_start w n [] with
  | next s =>
    rw [hs] at h
    refine qualify_loop_no_getenv w fuel s r ?_ h
    rcases (qualify_start_next hs).2.2 with ⟨_, _, h2⟩ | ⟨_, _, h2⟩ <;> rw [h2] <;> simp
  | done r1 =>
    rw [hs] at h
    simp only [Option.some.injEq] at h
    subst h
    rcases qualify_start_done hs with ⟨e, _, h2⟩ | ⟨_, _, _, h2⟩
    · subst h2
      by_cases he : e = Errno.ENOENT <;> simp [he]
    · subst h2
      simp

theorem find_path_separator_eq (fuel : Nat) (w : World) (file : Path)
    (hlen : file.length ≤ w.MAXPATHLEN) (hsep : '/' ∈ file) :
    find_path fuel w file = qualify fuel w file := by
  unfold find_path
  rw [if_neg (by omega), if_pos hsep]

/-! ## C1 -/

/-- C1: a command of at most `MAXPATHLEN` characters that holds a `/` is handed to `qualify` as it
is: `find_path` gives exactly the run of `qualify` on it, whatever PATH is (set or not), and
`getenv` is not called. -/
theorem find_path_with_separator (fuel : Nat) (w : World) (file : Path)
    (hlen : file.length ≤ w.MAXPATHLEN) (hsep : '/' ∈ file) :
    find_path fuel w file = qualify fuel w file ∧
    (∀ path : Option Path,
      find_path fuel { w with PATH := path } file = qualify fuel w file) ∧
    (∀ r, find_path fuel w file = some r → Event.getenv ∉ r.log) := by
  have h1 : ∀ v : World, v.MAXPATHLEN = w.MAXPATHLEN →
      find_path fuel v file = qualify fuel v file := by
    intro v hv
    unfold find_path
    rw [if_neg (by omega), if_pos hsep]
  refine ⟨h1 w rfl, ?_, ?_⟩
  · intro path
    exact (h1 { w with PATH := path } rfl).trans (qualify_PATH fuel w path file)
  · intro r hr
    rw [h1 w rfl] at hr
    exact qualify_no_getenv fuel w file r hr

theorem find_path_with_separator_witness :
    ("/bin/ls".toList).length ≤ w_bin.MAXPATHLEN ∧ '/' ∈ "/bin/ls".toList ∧
    find_path 3 w_bin "/bin/ls".toList = qualify 3 w_bin "/bin/ls".toList ∧
    (qualify 3 w_bin "/bin/ls".toList).map Run.out = some (.result "/bin/ls".toList) :=
  ⟨by decide, by decide,
    (find_path_with_separator 3 w_bin "/bin/ls".toList (by decide) (by decide)).1, by decide⟩

/-! ## The search of find_path -/

theorem find_path_loop_spec (fuel : Nat) (w : World) (file : Path) :
    ∀ (ts : List Path) (checkdot : Bool) (log : List Event),
      find_path_loop fuel w file ts checkdot log =
        search_spec fuel w log (search_order_from file ts checkdot) := by
  intro ts
  induction ts with
  | nil =>
    intro checkdot log
    cases checkdot with
    | false => simp [find_path_loop, search_order_from, search_spec, search_events]
    | true =>
      simp only [find_path_loop, search_order_from, search_spec, dot_candidate,
        List.filter_nil, List.map_nil, List.any_nil, Bool.or_false, ↓reduceIte, List.nil_append,
        List.find?_cons, List.find?_nil, search_events, executable]
      cases hs : w.stat ('.' :: '/' :: file) with
      | ok m =>
        by_cases hx : has_exec_bit m = true
        · simp only [hx, ↓reduceIte]
          rw [qualify_from_after]
        · simp [hx]
      | err e => simp
  | cons t ts ih =>
    intro checkdot log
    by_cases ht : t = [] ∨ t = ['.']
    · have hd : deferred t = true := by simpa [deferred] using ht
      simp only [find_path_loop, if_pos ht]
      rw [ih true log]
      simp [search_order_from, hd]
    · have hd : deferred t = false := by simpa [deferred] using ht
      simp only [find_path_loop, if_neg ht]
      have hso : search_order_from file (t :: ts) checkdot =
          (t ++ '/' :: file) :: search_order_from file ts checkdot := by
        simp [search_order_from, hd]
      rw [hso]
      simp only [search_spec, List.find?_cons, search_events, executable]
      cases hs : w.stat (t ++ '/' :: file) with
      | ok m =>
        by_cases hx : has_exec_bit m = true
        · simp only [hx, ↓reduceIte]
          rw [qualify_from_after]
        · simp only [hx, Bool.false_eq_true, ↓reduceIte]
          rw [ih checkdot _]
          simp [search_spec, List.append_assoc]
      | err e =>
        simp only
        rw [ih checkdot _]
        simp [search_spec, List.append_assoc]

theorem find_path_search_spec (fuel : Nat) (w : World) (file path : Path)
    (hlen : file.length ≤ w.MAXPATHLEN) (hbare : '/' ∉ file) (hpath : w.PATH = some path) :
    find_path fuel w file =
      search_spec fuel w [Event.getenv] (search_order file (split_on ':' path)) := by
  unfold find_path
  rw [if_neg (by omega), if_neg hbare, hpath]
  exact find_path_loop_spec fuel w file _ false _

/-! ## C2 -/

theorem search_spec_out (fuel : Nat) (w : World) (log : List Event) (cands : List Path) :
    (search_spec fuel w log cands).map Run.out =
      (match cands.find? (executable w) with
       | some fn => (qualify fuel w fn).map Run.out
       | none => some .not_found) := by
  unfold search_spec
  cases cands.find? (executable w) with
  | none => rfl
  | some fn =>
    simp only [Option.map_map]
    rfl

/-! ## C3 -/

theorem index_split_no_sep (c : Char) : ∀ s : Path, c ∉ (index_split c s).1 := by
  intro s
  induction s with
  | nil => simp [index_split]
  | cons x xs ih =>
    unfold index_split
    by_cases hx : x = c
    · simp [hx]
    · simp only [hx, ↓reduceIte, List.mem_cons, not_or]
      exact ⟨fun h => hx h.symm, ih⟩

theorem index_split_some (c : Char) : ∀ (s r : Path), (index_split c s).2 = some r →
    s = (index_split c s).1 ++ c :: r := by
  intro s
  induction s with
  | nil => intro r h; simp [index_split] at h
  | cons x xs ih =>
    intro r h
    unfold index_split at h ⊢
    by_cases hx : x = c
    · simp only [hx, ↓reduceIte, Option.some.injEq] at h
      simp [hx, h]
    · simp only [hx, ↓reduceIte] at h
      simp only [hx, ↓reduceIte, List.cons_append, List.cons.injEq, true_and]
      exact ih r h

theorem index_split_none (c : Char) : ∀ s : Path, (index_split c s).2 = none →
    (index_split c s).1 = s := by
  intro s
  induction s with
  | nil => intro _; simp [index_split]
  | cons x xs ih =>
    intro h
    unfold index_split at h ⊢
    by_cases hx : x = c
    · simp [hx] at h
    · simp only [hx, ↓reduceIte] at h
      simp only [hx, ↓reduceIte, List.cons.injEq, true_and]
      exact ih h

theorem split_on_ne_nil (c : Char) : ∀ s : Path, split_on c s ≠ [] := by
  intro s
  induction s with
  | nil => simp [split_on]
  | cons x xs ih =>
    unfold split_on
    by_cases hx : x = c
    · simp [hx]
    · simp only [hx, ↓reduceIte]
      split <;> simp

theorem split_on_no_sep (c : Char) : ∀ s : Path, c ∉ s → split_on c s = [s] := by
  intro s
  induction s with
  | nil => intro _; simp [split_on]
  | cons x xs ih =>
    intro h
    simp only [List.mem_cons, not_or] at h
    unfold split_on
    rw [if_neg (fun hx => h.1 hx.symm), ih h.2]

theorem split_on_append_sep (c : Char) (comp : Path) (hc : c ∉ comp) :
    ∀ full : Path, split_on c (full ++ c :: comp) = split_on c full ++ [comp] := by
  intro full
  induction full with
  | nil => simp [split_on, split_on_no_sep c comp hc]
  | cons x xs ih =>
    rw [List.cons_append]
    unfold split_on
    by_cases hx : x = c
    · simp [hx, ih]
    · simp only [hx, ↓reduceIte]
      rw [ih]
      cases hs : split_on c xs with
      | nil => exact absurd hs (split_on_ne_nil c xs)
      | cons t ts => simp

/-- Cutting at the last `/` leaves the string as it is (no `/` in it) or removes a last piece
that holds no `/`. -/
theorem rindex_cut_spec : ∀ p : Path,
    ('/' ∉ p ∧ rindex_cut p = p) ∨ ∃ tl, '/' ∉ tl ∧ p = rindex_cut p ++ '/' :: tl := by
  intro p
  induction p with
  | nil => left; simp [rindex_cut]
  | cons x xs ih =>
    unfold rindex_cut
    by_cases hm : '/' ∈ xs
    · right
      rcases ih with ⟨h1, _⟩ | ⟨tl, htl, hp⟩
      · exact absurd hm h1
      · refine ⟨tl, htl, ?_⟩
        simp only [hm, ↓reduceIte, List.cons_append, List.cons.injEq, true_and]
        exact hp
    · by_cases hx : x = '/'
      · right
        exact ⟨xs, hm, by simp [hm, hx]⟩
      · left
        simp only [hm, ↓reduceIte, hx, List.mem_cons, not_or, and_true]
        exact ⟨fun h => hx h.symm, fun h => h⟩

theorem rindex_cut_append (comp : Path) (hc : '/' ∉ comp) :
    ∀ full : Path, rindex_cut (full ++ '/' :: comp) = full := by
  intro full
  induction full with
  | nil => simp [rindex_cut, hc]
  | cons x xs ih =>
    rw [List.cons_append]
    unfold rindex_cut
    simp [ih]

theorem rindex_cut_components (p : Path) :
    ∃ more, split_on '/' p = split_on '/' (rindex_cut p) ++ more := by
  rcases rindex_cut_spec p with ⟨_, h⟩ | ⟨tl, htl, hp⟩
  · exact ⟨[], by rw [h]; simp⟩
  · refine ⟨[tl], ?_⟩
    conv_lhs => rw [hp]
    exact split_on_append_sep '/' tl htl _

theorem rindex_cut_rooted (p : Path) (h : empty_or_rooted p) :
    empty_or_rooted (rindex_cut p) := by
  rcases rindex_cut_spec p with ⟨_, h2⟩ | ⟨tl, _, hp⟩
  · rw [h2]; exact h
  · cases hr : rindex_cut p with
    | nil => left; rfl
    | cons y ys =>
      right
      rcases h with h | h
      · rw [h] at hp; simp at hp
      · rw [hp, hr] at h
        simpa using h

theorem rindex_cut_no_dot (p : Path) (h : no_dot_component p) :
    no_dot_component (rindex_cut p) := by
  obtain ⟨more, hm⟩ := rindex_cut_components p
  intro c hc
  exact h c (by rw [hm]; exact List.mem_append_left _ hc)

theorem qualify_component_rooted (full comp : Path) (h : empty_or_rooted full) :
    empty_or_rooted (qualify_component full comp) := by
  unfold qualify_component
  split
  · exact h
  · split
    · exact rindex_cut_rooted full h
    · right
      rcases h with h | h
      · simp [h]
      · cases full with
        | nil => simp
        | cons y ys => simpa using h

theorem qualify_component_no_dot (full comp : Path) (hc : '/' ∉ comp)
    (h : no_dot_component full) : no_dot_component (qualify_component full comp) := by
  unfold qualify_component
  split
  · exact h
  · split
    · exact rindex_cut_no_dot full h
    · rename_i h1 h2
      intro c hcm
      rw [split_on_append_sep '/' comp hc] at hcm
      rcases List.mem_append.1 hcm with h3 | h3
      · exact h c h3
      · simp only [List.mem_singleton] at h3
        subst h3
        exact ⟨h1, h2⟩

/-! ## C5 -/

theorem walked_buffer_ok (s : QState)
    (h : empty_or_rooted s.full ∧ no_dot_component s.full) :
    empty_or_rooted s.walked ∧ no_dot_component s.walked :=
  ⟨qualify_component_rooted s.full s.comp h.1,
    qualify_component_no_dot s.full s.comp (index_split_no_sep '/' s.cur) h.2⟩

theorem empty_buffer_ok : empty_or_rooted [] ∧ no_dot_component [] := by decide

theorem qualify_step_buffer_ok (w : World) (s s1 : QState)
    (hP : empty_or_rooted s.full ∧ no_dot_component s.full)
    (h : qualify_step w s = .next s1) :
    empty_or_rooted s1.full ∧ no_dot_component s1.full := by
  have hw := walked_buffer_ok s hP
  rcases qualify_step_next h with ⟨r, _, _, h2 | h2 | ⟨m, _, _, h2, _⟩⟩ | ⟨m, _, _, _, _, h2, _⟩
  · rw [h2.2.1]; exact hP
  · rw [h2.2.1]; exact empty_buffer_ok
  · rw [h2]; exact hw
  · rw [h2]
    split
    · exact empty_buffer_ok
    · exact ⟨rindex_cut_rooted _ hw.1, rindex_cut_no_dot _ hw.2⟩

theorem qualify_loop_buffer_ok (w : World) (fuel : Nat) (s : QState) (r : Run) (p : Path)
    (hs : empty_or_rooted s.full ∧ no_dot_component s.full)
    (h : qualify_loop w fuel s = some r) (hout : r.out = .result p) :
    p.head? = some '/' ∧ no_dot_component p := by
  refine qualify_loop_induct w (fun s => empty_or_rooted s.full ∧ no_dot_component s.full)
    (fun r => ∀ p, r.out = .result p → p.head? = some '/' ∧ no_dot_component p)
    (fun s s1 hP h => qualify_step_buffer_ok w s s1 hP h) ?_ fuel s r hs h p hout
  intro s r2 hP hd q hq
  have hw := walked_buffer_ok s hP
  rcases qualify_step_done hd with ⟨_, _, h2⟩ | ⟨_, hne, m, _, _, h2⟩ | ⟨_, e, _, h2⟩ |
    ⟨_, m, rr, _, _, _, _, h2⟩ <;> subst h2
  · simp only [Outcome.result.injEq] at hq
    subst hq
    decide
  · simp only [Outcome.result.injEq] at hq
    subst hq
    rcases hw.1 with h3 | h3
    · exact absurd h3 hne
    · exact ⟨h3, hw.2⟩
  · exact Outcome.noConfusion hq
  · exact Outcome.noConfusion hq

/-- C5: when the working directory query gives a path that begins with `/` and has no `.` or `..`
component, the buffer `full` of `qualify` is, at the top of every iteration and once the component
of that iteration has been dealt with, either empty or begins with `/`, and none of its components
is `.` or `..`; so a result of `qualify` begins with `/` and has no `.` or `..` component. -/
theorem qualify_buffer_invariant (w : World) (n : Path)
    (hwd : ∀ wd, w.getwd = some wd → wd.head? = some '/' ∧ no_dot_component wd) :
    (∀ (s0 s : QState) (k : Nat), qualify_start w n [] = .next s0 →
        qualify_iter w k s0 = some s →
        (empty_or_rooted s.full ∧ no_dot_component s.full) ∧
        (empty_or_rooted s.walked ∧ no_dot_component s.walked)) ∧
    (∀ (fuel : Nat) (p : Path), (qualify fuel w n).map Run.out = some (.result p) →
        p.head? = some '/' ∧ no_dot_component p) := by
  have hinit : ∀ s0, qualify_start w n [] = .next s0 →
      empty_or_rooted s0.full ∧ no_dot_component s0.full := by
    intro s0 h0
    rcases (qualify_start_next h0).2.2 with ⟨_, h2, _⟩ | ⟨_, h2, _⟩
    · rw [h2]; exact empty_buffer_ok
    · exact ⟨Or.inr (hwd _ h2).1, (hwd _ h2).2⟩
  refine ⟨?_, ?_⟩
  · intro s0 s k h0 hk
    have hs := qualify_iter_induct w (fun s => empty_or_rooted s.full ∧ no_dot_component s.full)
      (fun s s1 hP h => qualify_step_buffer_ok w s s1 hP h) k s0 s (hinit s0 h0) hk
    exact ⟨hs, walked_buffer_ok s hs⟩
  · intro fuel p hp
    obtain ⟨s0, r, h0, hr, hout⟩ := qualify_result_from_loop hp
    exact qualify_loop_buffer_ok w fuel s0 r p (hinit s0 h0) hr hout

theorem qualify_buffer_invariant_witness :
    (∀ wd, w_dot.getwd = some wd → wd.head? = some '/' ∧ no_dot_component wd) ∧
    (qualify 3 w_dot "./ls".toList).map Run.out = some (.result "/home/u/ls".toList) ∧
    ("/home/u/ls".toList).head? = some '/' ∧ no_dot_component "/home/u/ls".toList :=
  have hwd : ∀ wd, w_dot.getwd = some wd → wd.head? = some '/' ∧ no_dot_component wd :=
    fun wd h => by
      obtain rfl : "/home/u".toList = wd := Option.some.inj h
      decide
  ⟨hwd, by decide,
    (qualify_buffer_invariant w_dot "./ls".toList hwd).2 3 "/home/u/ls".toList (by decide)⟩

/-! ## C6 -/

theorem mem_stems (p q : Path) :
    q ∈ stems p ↔ q ≠ [] ∧ (q = p ∨ ∃ r, p = q ++ '/' :: r) := by
  unfold stems
  simp only [List.mem_filter, List.mem_inits, decide_eq_true_eq]
  constructor
  · rintro ⟨⟨t, ht⟩, hne, h⟩
    refine ⟨hne, ?_⟩
    rcases h with h | h
    · exact Or.inl h
    · right
      subst ht
      simp only [List.drop_left] at h
      cases t with
      | nil => simp at h
      | cons y ys =>
        simp only [List.head?_cons, Option.some.injEq] at h
        exact ⟨ys, by rw [h]⟩
  · rintro ⟨hne, h | ⟨r, hr⟩⟩
    · exact ⟨⟨[], by simp [h]⟩, hne, Or.inl h⟩
    · subst hr
      exact ⟨⟨'/' :: r, rfl⟩, hne, Or.inr (by simp)⟩

theorem stems_append (full comp q : Path) (hc : '/' ∉ comp)
    (h : q ∈ stems (full ++ '/' :: comp)) : q ∈ stems full ∨ q = full ++ '/' :: comp := by
  rw [mem_stems] at h
  obtain ⟨hne, h | ⟨r, hr⟩⟩ := h
  · exact Or.inr h
  · left
    rw [mem_stems]
    refine ⟨hne, ?_⟩
    rcases List.append_eq_append_iff.1 hr with ⟨a, ha, ha2⟩ | ⟨c, hc1, hc2⟩
    · cases a with
      | nil => left; simpa using ha
      | cons y ys =>
        exfalso
        simp only [List.cons_append, List.cons.injEq] at ha2
        exact hc (by rw [ha2.2]; simp)
    · cases c with
      | nil => left; simpa using hc1.symm
      | cons y ys =>
        right
        simp only [List.cons_append, List.cons.injEq] at hc2
        exact ⟨ys, by rw [hc1, ← hc2.1]⟩

theorem stems_rindex_cut (p q : Path) (h : q ∈ stems (rindex_cut p)) : q ∈ stems p := by
  rcases rindex_cut_spec p with ⟨_, h2⟩ | ⟨tl, _, hp⟩
  · rw [h2] at h; exact h
  · rw [mem_stems] at h ⊢
    obtain ⟨hne, h | ⟨r, hr⟩⟩ := h
    · exact ⟨hne, Or.inr ⟨tl, by rw [h]; exact hp⟩⟩
    · exact ⟨hne, Or.inr ⟨r ++ '/' :: tl, by rw [hp, hr]; simp⟩⟩

theorem walked_no_link (w : World) (s : QState)
    (hG : ∀ q ∈ stems s.full, not_link w q = true) (hw : not_link w s.walked = true) :
    ∀ q ∈ stems s.walked, not_link w q = true := by
  intro q hq
  unfold QState.walked qualify_component at hq hw
  split at hq
  · exact hG q hq
  · split at hq
    · exact hG q (stems_rindex_cut _ q hq)
    · rename_i h1 h2
      rw [if_neg h1, if_neg h2] at hw
      rcases stems_append s.full s.comp q (index_split_no_sep '/' s.cur) hq with h3 | h3
      · exact hG q h3
      · rw [h3]; exact hw

theorem cut_walked_no_link (w : World) (s : QState)
    (hG : ∀ q ∈ stems s.full, not_link w q = true) :
    ∀ q ∈ stems (rindex_cut s.walked), not_link w q = true := by
  intro q hq
  unfold QState.walked qualify_component at hq
  split at hq
  · exact hG q (stems_rindex_cut _ q hq)
  · split at hq
    · exact hG q (stems_rindex_cut _ q (stems_rindex_cut _ q hq))
    · rw [rindex_cut_append s.comp (index_split_no_sep '/' s.cur)] at hq
      exact hG q hq

theorem not_link_of_lstat {w : World} {p : Path} {m : Nat} (h1 : w.lstat p = .ok m)
    (h2 : is_link m = false) : not_link w p = true := by
  simp [not_link, h1, h2]

theorem qualify_step_no_link (w : World) (s s1 : QState)
    (hG : ∀ q ∈ stems s.full, not_link w q = true) (h : qualify_step w s = .next s1) :
    ∀ q ∈ stems s1.full, not_link w q = true := by
  rcases qualify_step_next h with ⟨r, _, _, h2 | h2 | ⟨m, hm, hl, h2, _⟩⟩ |
    ⟨m, _, _, _, _, h2, _⟩
  · rw [h2.2.1]; exact hG
  · rw [h2.2.1]; intro q hq; simp [stems] at hq
  · rw [h2]; exact walked_no_link w s hG (not_link_of_lstat hm hl)
  · rw [h2]
    split
    · intro q hq; simp [stems] at hq
    · exact cut_walked_no_link w s hG

theorem stems_root (q : Path) (hq : q ∈ stems ['/']) : q = ['/'] := by
  rw [mem_stems] at hq
  rcases hq.2 with h3 | ⟨t, ht⟩
  · exact h3
  · cases q with
    | nil => exact absurd rfl hq.1
    | cons y ys => simp at ht

theorem qualify_loop_stems_checked (w : World) (hroot : not_link w ['/'] = true)
    (fuel : Nat) (s : QState) (r : Run) (p : Path)
    (hs : ∀ q ∈ stems s.full, not_link w q = true)
    (h : qualify_loop w fuel s = some r) (hout : r.out = .result p) :
    ∀ q ∈ stems p, not_link w q = true := by
  refine qualify_loop_induct w (fun s => ∀ q ∈ stems s.full, not_link w q = true)
    (fun r => ∀ p, r.out = .result p → ∀ q ∈ stems p, not_link w q = true)
    (fun s s1 hP h => qualify_step_no_link w s s1 hP h) ?_ fuel s r hs h p hout
  intro s r2 hG hd p2 hp2
  rcases qualify_step_done hd with ⟨_, _, h2⟩ | ⟨_, hne, m, hm, hl, h2⟩ | ⟨_, e, _, h2⟩ |
    ⟨_, m, rr, _, _, _, _, h2⟩ <;> subst h2
  · simp only [Outcome.result.injEq] at hp2
    subst hp2
    intro q hq
    rw [stems_root q hq]; exact hroot
  · simp only [Outcome.result.injEq] at hp2
    subst hp2
    exact walked_no_link w s hG (not_link_of_lstat hm hl)
  · exact Outcome.noConfusion hp2
  · exact Outcome.noConfusion hp2

/-- C6: when `qualify` returns a path, every initial segment of it that ends at a component
boundary, the path itself included, is reported by `lstat` as existing and not a symbolic link;
this takes the root `/` not to be a link and, for a relative argument, the same of the working
directory that seeds the buffer. -/
theorem qualify_result_no_link (fuel : Nat) (w : World) (n p : Path)
    (hroot : not_link w ['/'] = true)
    (hwd : ∀ wd, w.getwd = some wd → ∀ q ∈ stems wd, not_link w q = true)
    (h : (qualify fuel w n).map Run.out = some (.result p)) :
    ∀ q ∈ stems p, not_link w q = true := by
  obtain ⟨s0, r, h0, hr, hout⟩ := qualify_result_from_loop h
  have hinit : ∀ q ∈ stems s0.full, not_link w q = true := by
    rcases (qualify_start_next h0).2.2 with ⟨_, h2, _⟩ | ⟨_, h2, _⟩
    · rw [h2]; intro q hq; simp [stems] at hq
    · exact hwd _ h2
  exact qualify_loop_stems_checked w hroot fuel s0 r p hinit hr hout

theorem qualify_result_no_link_witness :
    not_link w_home ['/'] = true ∧
    (∀ wd, w_home.getwd = some wd → ∀ q ∈ stems wd, not_link w_home q = true) ∧
    (qualify 6 w_home "bin/ls".toList).map Run.out = some (.result "/bin/ls".toList) ∧
    stems "/bin/ls".toList = ["/bin".toList, "/bin/ls".toList] ∧
    ∀ q ∈ stems "/bin/ls".toList, not_link w_home q = true :=
  have hwd : ∀ wd, w_home.getwd = some wd → ∀ q ∈ stems wd, not_link w_home q = true :=
    fun wd h => by
      obtain rfl : "/home/u".toList = wd := Option.some.inj h
      decide
  ⟨by decide, hwd, by decide, by decide,
    qualify_result_no_link 6 w_home "bin/ls".toList "/bin/ls".toList (by decide) hwd
      (by decide)⟩

/-! ## C4 -/

/-- C4: `qualify` is not idempotent when the working directory is the root. The seed of `full` is
then `/`, the component `x` is appended as `/x`, and `qualify("x")` returns `//x`; on that result
the two leading separators are skipped and `qualify("//x")` returns `/x`, which is another
string. -/
theorem qualify_not_idempotent_at_root :
    w_root.getwd = some "/".toList ∧
    qualify 2 w_root "x".toList =
      some ⟨.result "//x".toList,
        [Event.stat "x".toList, Event.getwd, Event.lstat "//x".toList]⟩ ∧
    qualify 4 w_root "//x".toList =
      some ⟨.result "/x".toList, [Event.stat "//x".toList, Event.lstat "/x".toList]⟩ ∧
    "/x".toList ≠ "//x".toList := by
  decide

/-! ## C7 -/

theorem qualify_not_path_too_long (fuel : Nat) (w : World) (n : Path) (r : Run)
    (h : qualify fuel w n = some r) : ∀ f, r.out ≠ .path_too_long f := by
  unfold qualify qualify_from at h
  cases h0 : qualify_start w n [] with
  | done r1 =>
    rw [h0] at h
    simp only [Option.some.injEq] at h
    subst h
    intro f
    rcases qualify_start_done h0 with ⟨e, _, h2⟩ | ⟨_, _, _, h2⟩ <;> subst h2 <;> simp
  | next s0 =>
    rw [h0] at h
    refine qualify_loop_induct w (fun _ => True) (fun r => ∀ f, r.out ≠ .path_too_long f)
      (fun _ _ _ _ => trivial) ?_ fuel s0 r trivial h
    intro s r2 _ hd f
    rcases qualify_step_done hd with ⟨_, _, h2⟩ | ⟨_, _, m, _, _, h2⟩ | ⟨_, e, _, h2⟩ |
      ⟨_, m, rr, _, _, _, _, h2⟩ <;> subst h2 <;> simp

theorem find_path_not_path_too_long (fuel : Nat) (w : World) (file : Path) (r : Run)
    (hlen : file.length ≤ w.MAXPATHLEN) (h : find_path fuel w file = some r) :
    ∀ f, r.out ≠ .path_too_long f := by
  by_cases hsep : '/' ∈ file
  · rw [find_path_separator_eq fuel w file hlen hsep] at h
    exact qualify_not_path_too_long fuel w file r h
  · cases hpath : w.PATH with
    | none =>
      unfold find_path at h
      rw [if_neg (by omega), if_neg hsep, hpath] at h
      simp only [Option.some.injEq] at h
      subst h
      simp
    | some path =>
      rw [find_path_search_spec fuel w file path hlen hsep hpath] at h
      unfold search_spec at h
      cases hf : (search_order file (split_on ':' path)).find? (executable w) with
      | none =>
        rw [hf] at h
        simp only [Option.some.injEq] at h
        subst h
        simp
      | some fn =>
        rw [hf] at h
        simp only [Option.map_eq_some'] at h
        obtain ⟨q, hq, hqr⟩ := h
        subst hqr
        exact qualify_not_path_too_long fuel w fn q hq

/-- C8: a command longer than `MAXPATHLEN` ends `find_path` in the fatal "path too long" of line
88 before anything else is done: for every environment (PATH set or not, `/` in the command or
not) and with an empty log, so no query is made. For a run that does not end in the fatal exit of
the link expansion, the outcome is a "path too long" exactly when the command is longer than
`MAXPATHLEN`. -/
theorem find_path_too_long (fuel : Nat) (w : World) (file : Path) :
    (w.MAXPATHLEN < file.length → find_path fuel w file = some ⟨.path_too_long file, []⟩) ∧
    (∀ r, find_path fuel w file = some r → (∀ t s, r.out ≠ .expansion_too_long t s) →
      (r.out.isPathTooLong = true ↔ w.MAXPATHLEN < file.length)) := by
  have h1 : w.MAXPATHLEN < file.length →
      find_path fuel w file = some ⟨.path_too_long file, []⟩ := by
    intro hlen
    unfold find_path
    rw [if_pos hlen]
  refine ⟨h1, ?_⟩
  intro r hr hexp
  constructor
  · intro hlong
    by_contra hlen
    have hno := find_path_not_path_too_long fuel w file r (by omega) hr
    cases hout : r.out with
    | path_too_long f => exact hno f hout
    | expansion_too_long t s => exact hexp t s hout
    | result p => rw [hout] at hlong; simp [Outcome.isPathTooLong] at hlong
    | not_found => rw [hout] at hlong; simp [Outcome.isPathTooLong] at hlong
    | no_working_directory => rw [hout] at hlong; simp [Outcome.isPathTooLong] at hlong
  · intro hlen
    rw [h1 hlen] at hr
    simp only [Option.some.injEq] at hr
    subst hr
    rfl

theorem find_path_too_long_witness :
    w_small.MAXPATHLEN < ("abcde".toList).length ∧
    w_small.MAXPATHLEN < ("/bcde".toList).length ∧
    find_path 0 w_small "abcde".toList = some ⟨.path_too_long "abcde".toList, []⟩ ∧
    find_path 0 { w_small with PATH := none } "/bcde".toList =
      some ⟨.path_too_long "/bcde".toList, []⟩ :=
  ⟨by decide, by decide,
    (find_path_too_long 0 w_small "abcde".toList).1 (by decide),
    (find_path_too_long 0 { w_small with PATH := none } "/bcde".toList).1 (by decide)⟩

/-! ## C9 -/

/-- C9: `qualify` has no length test of its own. With `MAXPATHLEN = 4`, the five characters of
`/aaaa` are copied, walked and returned, and `/bbbb`, on which `stat` fails with ENAMETOOLONG,
gives "not found" after a `perror`; neither call ends in a fatal "path too long". -/
theorem qualify_long_path_not_fatal :
    w_small.MAXPATHLEN < ("/aaaa".toList).length ∧
    qualify 2 w_small "/aaaa".toList =
      some ⟨.result "/aaaa".toList, [Event.stat "/aaaa".toList, Event.lstat "/aaaa".toList]⟩ ∧
    w_small.MAXPATHLEN < ("/bbbb".toList).length ∧
    qualify 0 w_small "/bbbb".toList =
      some ⟨.not_found, [Event.stat "/bbbb".toList, Event.perror .qualify_stat]⟩ := by
  decide

/-! ## C10 -/

theorem qualify_loop_up (w : World) :
    ∀ (j fuel : Nat) (log : List Event), j + 1 ≤ fuel →
      (qualify_loop w fuel
        ⟨'.' :: '.' :: (List.replicate j ['/', '.', '.']).flatten, [], log⟩).map Run.out =
        some (.result ['/']) := by
  intro j
  induction j with
  | zero =>
    intro fuel log hf
    obtain ⟨f, rfl⟩ : ∃ f, fuel = f + 1 := ⟨fuel - 1, by omega⟩
    simp [qualify_loop, qualify_step, QState.comp, QState.rest, QState.walked, index_split,
      qualify_component, rindex_cut, qualify_while]
  | succ j ih =>
    intro fuel log hf
    obtain ⟨f, rfl⟩ : ∃ f, fuel = f + 1 := ⟨fuel - 1, by omega⟩
    have hstep : qualify_step w
        ⟨'.' :: '.' :: (List.replicate (j + 1) ['/', '.', '.']).flatten, [], log⟩ =
        .next ⟨'.' :: '.' :: (List.replicate j ['/', '.', '.']).flatten, [], log⟩ := by
      simp [qualify_step, QState.comp, QState.rest, QState.walked, index_split,
        qualify_component, rindex_cut, qualify_while, List.replicate_succ]
    rw [qualify_loop, hstep]
    exact ih f log (by omega)

/-- C10: the path made of `/` and `k` components `..` (`/`, `/..`, `/../..`, ...) resolves to
`/` for every `k`, given that `stat` succeeds on it and that `/` is not a symbolic link; `k + 2`
iterations of the loop are enough. For `k = 0` this is `qualify("/") = "/"`. -/
theorem qualify_up_path (k fuel : Nat) (w : World) (m : Nat)
    (hstat : w.stat (up_path k) = .ok m) (hroot : not_link w ['/'] = true)
    (hfuel : k + 2 ≤ fuel) :
    (qualify fuel w (up_path k)).map Run.out = some (.result ['/']) := by
  obtain ⟨f, rfl⟩ : ∃ f, fuel = f + 2 := ⟨fuel - 2, by omega⟩
  unfold qualify qualify_from qualify_start
  rw [hstat]
  cases k with
  | zero =>
    unfold not_link at hroot
    cases hl : w.lstat ['/'] with
    | err e => rw [hl] at hroot; simp at hroot
    | ok m1 =>
      rw [hl] at hroot
      simp only [Bool.not_eq_eq_eq_not, Bool.not_true] at hroot
      simp [up_path, qualify_loop, qualify_step, QState.comp, QState.rest, QState.walked,
        index_split, qualify_component, qualify_while, hl, hroot]
  | succ j =>
    have hup : up_path (j + 1) =
        '/' :: '.' :: '.' :: (List.replicate j ['/', '.', '.']).flatten := by
      simp [up_path, List.replicate_succ]
    rw [hup]
    simp only [List.head?_cons, ne_eq, not_true_eq_false, ↓reduceIte, List.nil_append]
    have hstep : qualify_step w
        ⟨'/' :: '.' :: '.' :: (List.replicate j ['/', '.', '.']).flatten, [],
          [Event.stat ('/' :: '.' :: '.' :: (List.replicate j ['/', '.', '.']).flatten)]⟩ =
        .next ⟨'.' :: '.' :: (List.replicate j ['/', '.', '.']).flatten, [],
          [Event.stat ('/' :: '.' :: '.' :: (List.replicate j ['/', '.', '.']).flatten)]⟩ := by
      simp [qualify_step, QState.comp, QState.rest, index_split, qualify_while]
    rw [qualify_loop, hstep]
    exact qualify_loop_up w j (f + 1) _ (by omega)

theorem qualify_up_path_witness :
    up_path 0 = "/".toList ∧ up_path 2 = "/../..".toList ∧
    w_home.stat (up_path 2) = .ok 0o100755 ∧ not_link w_home ['/'] = true ∧
    (qualify 4 w_home "/../..".toList).map Run.out = some (.result "/".toList) :=
  ⟨by decide, by decide, rfl, by decide,
    qualify_up_path 2 4 w_home 0o100755 rfl (by decide) (by decide)⟩

/-! ## Paths that qualify leaves as they are -/

theorem split_on_cons (c x : Char) (xs : Path) :
    split_on c (x :: xs) =
      if x = c then [] :: split_on c xs
      else match split_on c xs with
        | [] => [[x]]
        | t :: ts => (x :: t) :: ts := rfl

theorem split_on_append (c : Char) (b : Path) :
    ∀ a : Path, split_on c (a ++ c :: b) = split_on c a ++ split_on c b := by
  intro a
  induction a with
  | nil => rw [List.nil_append, split_on_cons, if_pos rfl]; rfl
  | cons x xs ih =>
    rw [List.cons_append, split_on_cons, split_on_cons, ih]
    by_cases hx : x = c
    · simp [hx]
    · simp only [hx, ↓reduceIte]
      cases hs : split_on c xs with
      | nil => exact absurd hs (split_on_ne_nil c xs)
      | cons t ts => simp

theorem mem_split_on_self (c : Char) (s : Path) (hs : c ∉ s) : s ∈ split_on c s := by
  rw [split_on_no_sep c s hs]; simp

theorem lstat_of_not_link {w : World} {p : Path} (h : not_link w p = true) :
    ∃ m, w.lstat p = .ok m ∧ is_link m = false := by
  unfold not_link at h
  cases hl : w.lstat p with
  | err e => rw [hl] at h; simp at h
  | ok m => rw [hl] at h; exact ⟨m, rfl, by simpa using h⟩

/-- An absolute path without `.`, `..` or empty inner component, whose initial segments are all
reported by `lstat` as existing and not links, is walked through unchanged. -/
theorem qualify_loop_walk (w : World) (r : Path) (hdot : no_dot_component r)
    (hne : ¬ ['/', '/'] <:+: r) (hgood : ∀ q ∈ stems r, not_link w q = true) :
    ∀ (fuel : Nat) (cur full : Path) (log : List Event), full ++ '/' :: cur = r →
      cur.length + 1 ≤ fuel →
      (qualify_loop w fuel ⟨cur, full, log⟩).map Run.out = some (.result r) := by
  intro fuel
  induction fuel with
  | zero => intro cur full log _ hf; omega
  | succ f ih =>
    intro cur full log hr hf
    have hnosep := index_split_no_sep '/' cur
    -- the component is neither `.` nor `..`, and the buffer becomes `full/comp`
    have hwalk : ∀ comp, comp ∈ split_on '/' r →
        qualify_component full comp = full ++ '/' :: comp := by
      intro comp hc
      unfold qualify_component
      rw [if_neg (hdot comp hc).1, if_neg (hdot comp hc).2]
    cases hrest : (index_split '/' cur).2 with
    | some rr =>
      have hcur := index_split_some '/' cur rr hrest
      have hcomp_ne : (index_split '/' cur).1 ≠ [] := by
        intro h0
        rw [h0] at hcur
        apply hne
        refine ⟨full, rr, ?_⟩
        rw [← hr, hcur]
        simp
      have hr2 : (full ++ '/' :: (index_split '/' cur).1) ++ '/' :: rr = r := by
        rw [← hr]
        conv_rhs => rw [hcur]
        simp
      have hmem : (index_split '/' cur).1 ∈ split_on '/' r := by
        rw [← hr2, split_on_append, split_on_append]
        simp [mem_split_on_self '/' _ hnosep]
      have hst : full ++ '/' :: (index_split '/' cur).1 ∈ stems r := by
        rw [mem_stems]
        exact ⟨by simp, Or.inr ⟨rr, hr2.symm⟩⟩
      obtain ⟨m, hm, hl⟩ := lstat_of_not_link (hgood _ hst)
      have hstep : qualify_step w ⟨cur, full, log⟩ =
          .next ⟨rr, full ++ '/' :: (index_split '/' cur).1,
            log ++ [Event.lstat (full ++ '/' :: (index_split '/' cur).1)]⟩ := by
        unfold qualify_step
        simp only [QState.comp, QState.rest, QState.walked, hwalk _ hmem, hrest]
        rw [if_neg (fun h => hcomp_ne h.1), if_neg (by simp), hm]
        simp [hl, qualify_while]
      rw [qualify_loop, hstep]
      refine ih rr _ _ hr2 ?_
      have hlen : cur.length = (index_split '/' cur).1.length + 1 + rr.length := by
        conv_lhs => rw [hcur]
        simp
        omega
      omega
    | none =>
      have hcur := index_split_none '/' cur hrest
      have hmem : (index_split '/' cur).1 ∈ split_on '/' r := by
        rw [← hr, split_on_append, hcur]
        rw [hcur] at hnosep
        simp [mem_split_on_self '/' _ hnosep]
      have hst : r ∈ stems r := by
        rw [mem_stems]
        exact ⟨by rw [← hr]; simp, Or.inl rfl⟩
      obtain ⟨m, hm, hl⟩ := lstat_of_not_link (hgood _ hst)
      have hw : qualify_component full (index_split '/' cur).1 = r := by
        rw [hwalk _ hmem, hcur, hr]
      have hrne : r ≠ [] := by rw [← hr]; simp
      have hstep : qualify_step w ⟨cur, full, log⟩ =
          .done ⟨.result r, log ++ [Event.lstat r]⟩ := by
        unfold qualify_step
        simp only [QState.comp, QState.rest, QState.walked, hw, hrest]
        rw [if_neg (by simp), if_neg hrne, hm]
        simp [hl, qualify_while, hrne]
      rw [qualify_loop, hstep]
      rfl

/-- On such a path `qualify` returns the path itself. -/
theorem qualify_fixed (w : World) (r : Path) (m : Nat) (hstat : w.stat r = .ok m)
    (habs : r.head? = some '/') (hdot : no_dot_component r) (hne : ¬ ['/', '/'] <:+: r)
    (hgood : ∀ q ∈ stems r, not_link w q = true) (fuel : Nat) (hf : r.length + 1 ≤ fuel) :
    (qualify fuel w r).map Run.out = some (.result r) := by
  cases r with
  | nil => simp at habs
  | cons x tl =>
    simp only [List.head?_cons, Option.some.injEq] at habs
    subst habs
    obtain ⟨f, rfl⟩ : ∃ f, fuel = f + 1 := ⟨fuel - 1, by omega⟩
    unfold qualify qualify_from qualify_start
    rw [hstat]
    simp only [List.head?_cons, ne_eq, not_true_eq_false, ↓reduceIte, List.nil_append]
    have hstep : qualify_step w ⟨'/' :: tl, [], [Event.stat ('/' :: tl)]⟩ =
        .next ⟨tl, [], [Event.stat ('/' :: tl)]⟩ := by
      simp [qualify_step, QState.comp, QState.rest, index_split, qualify_while]
    rw [qualify_loop, hstep]
    exact qualify_loop_walk w ('/' :: tl) hdot hne hgood f tl [] _ rfl
      (by simp only [List.length_cons] at hf; omega)

/-- Apart from results with an empty inner component, `qualify` is idempotent: a result `r`
without `//` on which `stat` succeeds is returned again by `qualify(r)`, when the root and the
working directory are free of links and the working directory has no `.` or `..` component. -/
theorem qualify_idempotent_without_empty_component (fuel : Nat) (w : World) (n r : Path)
    (m : Nat) (h : (qualify fuel w n).map Run.out = some (.result r))
    (hroot : not_link w ['/'] = true)
    (hwd : ∀ wd, w.getwd = some wd →
      (wd.head? = some '/' ∧ no_dot_component wd) ∧ ∀ q ∈ stems wd, not_link w q = true)
    (hstat : w.stat r = .ok m) (hne : ¬ ['/', '/'] <:+: r)
    (fuel2 : Nat) (hf : r.length + 1 ≤ fuel2) :
    (qualify fuel2 w r).map Run.out = some (.result r) := by
  obtain ⟨s0, r0, h0, hr, hout⟩ := qualify_result_from_loop h
  have h5 : r.head? = some '/' ∧ no_dot_component r := by
    refine qualify_loop_buffer_ok w fuel s0 r0 r ?_ hr hout
    rcases (qualify_start_next h0).2.2 with ⟨_, h2, _⟩ | ⟨_, h2, _⟩
    · rw [h2]; exact empty_buffer_ok
    · exact ⟨Or.inr (hwd _ h2).1.1, (hwd _ h2).1.2⟩
  have h6 : ∀ q ∈ stems r, not_link w q = true := by
    refine qualify_loop_stems_checked w hroot fuel s0 r0 r ?_ hr hout
    rcases (qualify_start_next h0).2.2 with ⟨_, h2, _⟩ | ⟨_, h2, _⟩
    · rw [h2]; intro q hq; simp [stems] at hq
    · exact (hwd _ h2).2
  exact qualify_fixed w r m hstat h5.1 h5.2 hne h6 fuel2 hf

theorem qualify_idempotent_without_empty_component_witness :
    (qualify 6 w_home "bin/ls".toList).map Run.out = some (.result "/bin/ls".toList) ∧
    (qualify 8 w_home "/bin/ls".toList).map Run.out = some (.result "/bin/ls".toList) :=
  have hwd : ∀ wd, w_home.getwd = some wd →
      (wd.head? = some '/' ∧ no_dot_component wd) ∧
        ∀ q ∈ stems wd, not_link w_home q = true :=
    fun wd h => by
      obtain rfl : "/home/u".toList = wd := Option.some.inj h
      decide
  ⟨by decide,
    qualify_idempotent_without_empty_component 6 w_home "bin/ls".toList "/bin/ls".toList
      0o100755 (by decide) (by decide) hwd rfl (by decide) 8 (by decide)⟩

/-! ## One iteration, case by case -/

/-- An iteration that finds a path that is not a link. -/
theorem qualify_step_plain (w : World) (s : QState) (m : Nat)
    (hskip : ¬(s.comp = [] ∧ s.rest.isSome)) (hw : s.walked ≠ [])
    (hl : w.lstat s.walked = .ok m) (hm : is_link m = false) :
    qualify_step w s = qualify_while s.rest s.walked (s.log ++ [Event.lstat s.walked]) := by
  unfold qualify_step
  rw [if_neg hskip, if_neg hw, hl]
  simp [hm]

/-- An iteration that finds a symbolic link. -/
theorem qualify_step_link (w : World) (s : QState) (m : Nat)
    (hskip : ¬(s.comp = [] ∧ s.rest.isSome)) (hw : s.walked ≠ [])
    (hl : w.lstat s.walked = .ok m) (hm : is_link m = true) :
    qualify_step w s = qualify_link w s.rest s.walked (s.log ++ [Event.lstat s.walked]) := by
  unfold qualify_step
  rw [if_neg hskip, if_neg hw, hl]
  simp [hm]

/-- An iteration on which `lstat` fails. -/
theorem qualify_step_lstat_err (w : World) (s : QState) (e : Errno)
    (hskip : ¬(s.comp = [] ∧ s.rest.isSome)) (hw : s.walked ≠ [])
    (hl : w.lstat s.walked = .err e) :
    qualify_step w s =
      .done ⟨.not_found, s.log ++ [Event.lstat s.walked, Event.perror .qualify_lstat]⟩ := by
  unfold qualify_step
  rw [if_neg hskip, if_neg hw, hl]

theorem qualify_loop_succ (w : World) (fuel : Nat) (s : QState) :
    qualify_loop w (fuel + 1) s =
      match qualify_step w s with
      | .next s1 => qualify_loop w fuel s1
      | .done r => some r := rfl

/-! ## C11 -/

/-- C11, as the claim has it, fails: with `/w/a` and `/w/a/c` present and `/w/a/b` absent, so
that `stat("a/b/../c")` answers ENOENT, `qualify("a/b/../c")` returns NULL at line 185 and not
`/w/a/c`. Were that `stat` to succeed, the walk would still end at the `lstat` of `/w/a/b`, made
as soon as `b` is appended. -/
theorem qualify_dotdot_missing_component :
    w_nob.getwd = some "/w".toList ∧
    not_link w_nob "/w/a".toList = true ∧ not_link w_nob "/w/a/c".toList = true ∧
    w_nob.lstat "/w/a/b".toList = .err .ENOENT ∧
    w_nob.stat "a/b/../c".toList = .err .ENOENT ∧
    (∀ fuel, qualify fuel w_nob "a/b/../c".toList =
      some ⟨.not_found, [Event.stat "a/b/../c".toList]⟩) ∧
    qualify 9 { w_nob with stat := fun _ => .ok 0o100644 } "a/b/../c".toList =
      some ⟨.not_found,
        [Event.stat "a/b/../c".toList, Event.getwd, Event.lstat "/w/a".toList,
          Event.lstat "/w/a/b".toList, Event.perror .qualify_lstat]⟩ := by
  refine ⟨rfl, by decide, by decide, by decide, by decide, ?_, by decide⟩
  intro fuel
  rfl

theorem qualify_step_append (w : World) (cur full comp : Path) (log : List Event)
    (rest : Option Path) (m : Nat) (hsplit : index_split '/' cur = (comp, rest))
    (hc : comp ≠ []) (h1 : comp ≠ ['.']) (h2 : comp ≠ ['.', '.'])
    (hl : w.lstat (full ++ '/' :: comp) = .ok m) (hm : is_link m = false) :
    qualify_step w ⟨cur, full, log⟩ =
      qualify_while rest (full ++ '/' :: comp) (log ++ [Event.lstat (full ++ '/' :: comp)]) := by
  have hcomp : (⟨cur, full, log⟩ : QState).comp = comp := by simp [QState.comp, hsplit]
  have hrest : (⟨cur, full, log⟩ : QState).rest = rest := by simp [QState.rest, hsplit]
  have hwalk : (⟨cur, full, log⟩ : QState).walked = full ++ '/' :: comp := by
    simp [QState.walked, hcomp, qualify_component, h1, h2]
  have h := qualify_step_plain w ⟨cur, full, log⟩ m (by rw [hcomp]; exact fun h => hc h.1)
    (by rw [hwalk]; simp) (by rw [hwalk]; exact hl) hm
  rw [h, hrest, hwalk]

theorem qualify_step_dotdot (w : World) (cur full : Path) (log : List Event)
    (rest : Option Path) (m : Nat) (hsplit : index_split '/' cur = (['.', '.'], rest))
    (hw : rindex_cut full ≠ []) (hl : w.lstat (rindex_cut full) = .ok m)
    (hm : is_link m = false) :
    qualify_step w ⟨cur, full, log⟩ =
      qualify_while rest (rindex_cut full) (log ++ [Event.lstat (rindex_cut full)]) := by
  have hcomp : (⟨cur, full, log⟩ : QState).comp = ['.', '.'] := by simp [QState.comp, hsplit]
  have hrest : (⟨cur, full, log⟩ : QState).rest = rest := by simp [QState.rest, hsplit]
  have hwalk : (⟨cur, full, log⟩ : QState).walked = rindex_cut full := by
    simp [QState.walked, hcomp, qualify_component]
  have h := qualify_step_plain w ⟨cur, full, log⟩ m (by rw [hcomp]; simp)
    (by rw [hwalk]; exact hw) (by rw [hwalk]; exact hl) hm
  rw [h, hrest, hwalk]

theorem qualify_relative_start (fuel : Nat) (w : World) (n wd : Path) (m : Nat)
    (hstat : w.stat n = .ok m) (hrel : n.head? ≠ some '/') (hwd : w.getwd = some wd) :
    qualify fuel w n = qualify_loop w fuel ⟨n, wd, [Event.stat n, Event.getwd]⟩ := by
  unfold qualify qualify_from qualify_start
  rw [hstat]
  simp only [hrel, ne_eq, not_false_eq_true, ↓reduceIte, hwd, List.nil_append]

theorem qualify_absolute_start (fuel : Nat) (w : World) (n : Path) (m : Nat)
    (hstat : w.stat n = .ok m) (habs : n.head? = some '/') :
    qualify fuel w n = qualify_loop w fuel ⟨n, [], [Event.stat n]⟩ := by
  unfold qualify qualify_from qualify_start
  rw [hstat]
  simp only [habs, ne_eq, not_true_eq_false, ↓reduceIte, List.nil_append]

theorem qualify_stat_err (fuel : Nat) (w : World) (n : Path) (e : Errno)
    (hstat : w.stat n = .err e) :
    (qualify fuel w n).map Run.out = some .not_found := by
  unfold qualify qualify_from qualify_start
  rw [hstat]
  rfl

/-- C11, amended: for the relative path `a/b/../c` and the working directory `W`, `qualify`
returns not-found when the `stat` of the whole path fails, and also when that `stat` succeeds
but the `lstat` of `W/a/b`, made right after `b` is appended, fails; it returns `W/a/c`, the `..`
removing the component `b`, when `stat` succeeds and `W/a`, `W/a/b` and `W/a/c` are reported by
`lstat` as existing and not links. -/
theorem qualify_dotdot_existing_component (fuel : Nat) (w : World) (W : Path)
    (hwd : w.getwd = some W) (hf : 4 ≤ fuel) :
    (∀ e, w.stat "a/b/../c".toList = .err e →
      (qualify fuel w "a/b/../c".toList).map Run.out = some .not_found) ∧
    (∀ m e, w.stat "a/b/../c".toList = .ok m → not_link w (W ++ "/a".toList) = true →
      w.lstat (W ++ "/a/b".toList) = .err e →
      (qualify fuel w "a/b/../c".toList).map Run.out = some .not_found) ∧
    (∀ m, w.stat "a/b/../c".toList = .ok m → not_link w (W ++ "/a".toList) = true →
      not_link w (W ++ "/a/b".toList) = true → not_link w (W ++ "/a/c".toList) = true →
      (qualify fuel w "a/b/../c".toList).map Run.out = some (.result (W ++ "/a/c".toList))) := by
  obtain ⟨f, rfl⟩ : ∃ f, fuel = f + 4 := ⟨fuel - 4, by omega⟩
  have hp : "a/b/../c".toList = ['a', '/', 'b', '/', '.', '.', '/', 'c'] := rfl
  have hWa : W ++ "/a".toList = W ++ '/' :: ['a'] := rfl
  have hWab : W ++ "/a/b".toList = (W ++ '/' :: ['a']) ++ '/' :: ['b'] := by
    simp [show "/a/b".toList = ['/', 'a', '/', 'b'] from rfl]
  have hWac : W ++ "/a/c".toList = (W ++ '/' :: ['a']) ++ '/' :: ['c'] := by
    simp [show "/a/c".toList = ['/', 'a', '/', 'c'] from rfl]
  rw [hp, hWa, hWab, hWac]
  refine ⟨fun e he => qualify_stat_err _ w _ e he, ?_, ?_⟩
  · intro m e hstat ha hb
    obtain ⟨ma, hla, hma⟩ := lstat_of_not_link ha
    rw [qualify_relative_start _ w _ W m hstat (by simp) hwd, qualify_loop_succ,
      qualify_step_append w _ W ['a'] _ (some ['b', '/', '.', '.', '/', 'c']) ma
        (by simp [index_split]) (by simp) (by simp) (by simp) hla hma]
    simp only [qualify_while]
    rw [qualify_loop_succ, qualify_step_lstat_err w _ e (by simp [QState.comp, index_split])
      (by simp [QState.walked, QState.comp, index_split, qualify_component])
      (by simpa [QState.walked, QState.comp, index_split, qualify_component] using hb)]
    rfl
  · intro m hstat ha hb hc
    obtain ⟨ma, hla, hma⟩ := lstat_of_not_link ha
    obtain ⟨mb, hlb, hmb⟩ := lstat_of_not_link hb
    obtain ⟨mc, hlc, hmc⟩ := lstat_of_not_link hc
    have hcut : rindex_cut ((W ++ '/' :: ['a']) ++ '/' :: ['b']) = W ++ '/' :: ['a'] :=
      rindex_cut_append ['b'] (by simp) _
    rw [qualify_relative_start _ w _ W m hstat (by simp) hwd, qualify_loop_succ,
      qualify_step_append w _ W ['a'] _ (some ['b', '/', '.', '.', '/', 'c']) ma
        (by simp [index_split]) (by simp) (by simp) (by simp) hla hma]
    simp only [qualify_while]
    rw [qualify_loop_succ,
      qualify_step_append w _ _ ['b'] _ (some ['.', '.', '/', 'c']) mb
        (by simp [index_split]) (by simp) (by simp) (by simp) hlb hmb]
    simp only [qualify_while]
    rw [qualify_loop_succ,
      qualify_step_dotdot w _ _ _ (some ['c']) ma (by simp [index_split])
        (by rw [hcut]; simp) (by rw [hcut]; exact hla) hma]
    simp only [qualify_while, hcut]
    rw [qualify_loop_succ,
      qualify_step_append w _ _ ['c'] _ none mc
        (by simp [index_split]) (by simp) (by simp) (by simp) hlc hmc]
    simp [qualify_while]

theorem qualify_dotdot_existing_component_witness :
    w_home.getwd = some "/home/u".toList ∧
    (qualify 4 w_home "a/b/../c".toList).map Run.out = some (.result "/home/u/a/c".toList) ∧
    (qualify 4 w_nob "a/b/../c".toList).map Run.out = some .not_found :=
  ⟨rfl,
    (qualify_dotdot_existing_component 4 w_home "/home/u".toList rfl (by decide)).2.2
      0o100755 rfl (by decide) (by decide) (by decide),
    (qualify_dotdot_existing_component 4 w_nob "/w".toList rfl (by decide)).1
      .ENOENT (by decide)⟩

/-! ## C12 -/

theorem qualify_iter_loop (w : World) :
    ∀ (k f : Nat) (s0 s : QState), qualify_iter w k s0 = some s →
      qualify_loop w (k + f) s0 = qualify_loop w f s := by
  intro k
  induction k with
  | zero =>
    intro f s0 s h
    simp only [qualify_iter, Option.some.injEq] at h
    subst h
    simp
  | succ k ih =>
    intro f s0 s h
    unfold qualify_iter at h
    have hk : k + 1 + f = (k + f) + 1 := by omega
    rw [hk, qualify_loop_succ]
    cases hs : qualify_step w s0 with
    | next s1 =>
      rw [hs] at h
      exact ih f s1 s h
    | done r => rw [hs] at h; simp at h

theorem qualify_loop_out_log (w : World) (fuel : Nat) (c f : Path) (l : List Event) :
    (qualify_loop w fuel ⟨c, f, l⟩).map Run.out =
      (qualify_loop w fuel ⟨c, f, []⟩).map Run.out := by
  have h := qualify_loop_after w l fuel c f []
  rw [List.append_nil] at h
  rw [h]
  cases qualify_loop w fuel ⟨c, f, []⟩ <;> rfl

theorem qualify_loop_from_start (fuel : Nat) (w : World) (p : Path) (s0 : QState)
    (h : qualify_start w p [] = .next s0) : qualify fuel w p = qualify_loop w fuel s0 := by
  unfold qualify qualify_from
  rw [h]

/-- C12: when the walk of `p` comes, at the top of iteration `k`, to a last component (nothing
follows it in the name) and the buffer with that component names a symbolic link whose target `t`
is absolute, the rest of `qualify(p)` is the walk of `t` from the empty buffer: with `k + 1` more
iterations of fuel, `qualify(p)` ends as that walk ends, which is how `qualify(t)` ends whenever
`stat(t)` succeeds. -/
theorem qualify_final_link_absolute (w : World) (p : Path) (s0 s : QState) (k m : Nat)
    (hstart : qualify_start w p [] = .next s0) (hiter : qualify_iter w k s0 = some s)
    (hlast : s.rest = none) (hw : s.walked ≠ []) (hl : w.lstat s.walked = .ok m)
    (hm : is_link m = true) (habs : (link_target w s.walked).head? = some '/') (f : Nat) :
    (qualify (k + 1 + f) w p).map Run.out =
      (qualify_loop w f ⟨link_target w s.walked, [], []⟩).map Run.out ∧
    (∀ m1, w.stat (link_target w s.walked) = .ok m1 →
      (qualify (k + 1 + f) w p).map Run.out =
        (qualify f w (link_target w s.walked)).map Run.out) := by
  have hstep : qualify_step w s =
      .next ⟨link_target w s.walked, [],
        s.log ++ [Event.lstat s.walked] ++ [Event.readlink s.walked]⟩ := by
    rw [qualify_step_link w s m (by rw [hlast]; simp) hw hl hm, hlast]
    simp [qualify_link, link_name, habs]
  have h1 : (qualify (k + 1 + f) w p).map Run.out =
      (qualify_loop w f ⟨link_target w s.walked, [], []⟩).map Run.out := by
    rw [qualify_loop_from_start _ w p s0 hstart, Nat.add_assoc,
      qualify_iter_loop w k (1 + f) s0 s hiter, Nat.add_comm 1 f, qualify_loop_succ, hstep]
    exact qualify_loop_out_log w f _ _ _
  refine ⟨h1, ?_⟩
  intro m1 hstat
  rw [h1, qualify_absolute_start f w _ m1 hstat habs]
  exact (qualify_loop_out_log w f _ _ _).symm

theorem qualify_final_link_absolute_witness :
    link_target w_home "/home/u/bin".toList = "/bin".toList ∧
    (qualify 7 w_home "/home/u/bin".toList).map Run.out =
      (qualify 3 w_home "/bin".toList).map Run.out ∧
    (qualify 3 w_home "/bin".toList).map Run.out = some (.result "/bin".toList) :=
  ⟨by decide,
    (qualify_final_link_absolute w_home "/home/u/bin".toList
      ⟨"/home/u/bin".toList, [], [Event.stat "/home/u/bin".toList]⟩
      ⟨"bin".toList, "/home/u".toList,
        [Event.stat "/home/u/bin".toList, Event.lstat "/home".toList,
          Event.lstat "/home/u".toList]⟩
      3 0o120777 (by decide) (by decide) (by decide) (by decide) (by decide) (by decide)
      (by decide) 3).2 0o100755 (by decide),
    by decide⟩

/-! ## C14 -/

/-- C14: when the buffer names a symbolic link with target `t` and a suffix `r` is left in the
name, the iteration ends in the fatal "path too long" exactly when `t/r` is longer than
`MAXPATHLEN`, that is when `len t + len r ≥ MAXPATHLEN`; otherwise the walk goes on with the new
name `t/r`, so a new name of exactly `MAXPATHLEN` characters is accepted. -/
theorem qualify_expansion_length (w : World) (s : QState) (m : Nat) (r : Path)
    (hcomp : s.comp ≠ []) (hw : s.walked ≠ []) (hl : w.lstat s.walked = .ok m)
    (hm : is_link m = true) (hrest : s.rest = some r) :
    ((∃ log, qualify_step w s = .done ⟨.expansion_too_long (link_target w s.walked) r, log⟩) ↔
      w.MAXPATHLEN < (link_target w s.walked ++ '/' :: r).length) ∧
    (w.MAXPATHLEN < (link_target w s.walked ++ '/' :: r).length ↔
      w.MAXPATHLEN ≤ (link_target w s.walked).length + r.length) ∧
    ((link_target w s.walked ++ '/' :: r).length ≤ w.MAXPATHLEN →
      ∃ full log, qualify_step w s = .next ⟨link_target w s.walked ++ '/' :: r, full, log⟩) := by
  have hstep := qualify_step_link w s m (fun h => hcomp h.1) hw hl hm
  rw [hrest] at hstep
  have hlen : (link_target w s.walked ++ '/' :: r).length =
      (link_target w s.walked).length + r.length + 1 := by
    simp
    omega
  refine ⟨?_, by rw [hlen]; omega, ?_⟩
  · constructor
    · rintro ⟨log, hd⟩
      rw [hstep] at hd
      unfold qualify_link at hd
      simp only at hd
      split at hd
      · rename_i hge
        rw [hlen]; omega
      · simp at hd
    · intro hlong
      rw [hstep]
      unfold qualify_link
      simp only
      rw [if_pos (by rw [hlen] at hlong; omega)]
      exact ⟨_, rfl⟩
  · intro hfit
    rw [hstep]
    unfold qualify_link
    simp only
    rw [if_neg (by rw [hlen] at hfit; omega)]
    exact ⟨_, _, rfl⟩

theorem qualify_expansion_length_witness :
    w_link.MAXPATHLEN = 8 ∧ link_target w_link "/l".toList = "/dd".toList ∧
    ("/dd/abcd".toList).length = 8 ∧
    (∃ full log, qualify_step w_link ⟨"l/abcd".toList, [], []⟩ =
      .next ⟨"/dd/abcd".toList, full, log⟩) ∧
    (qualify 9 w_link "/l/abcd".toList).map Run.out = some (.result "/dd/abcd".toList) ∧
    (qualify 9 w_link "/l/abcde".toList).map Run.out =
      some (.expansion_too_long "/dd".toList "abcde".toList) :=
  ⟨rfl, by decide, by decide,
    (qualify_expansion_length w_link ⟨"l/abcd".toList, [], []⟩ 0o120777 "abcd".toList
      (by decide) (by decide) (by decide) (by decide) (by decide)).2.2 (by decide),
    by decide, by decide⟩

/-! ## C15 -/

/-- C15: when the buffer `d/l` names a symbolic link with target `t`, a suffix `r` is left in
the name and the new name `t/r` is not too long: for a relative target (not empty, not beginning
with `/`) the walk goes on with the name `t/r` from the buffer `d`, the component `l` of the link
and nothing else being removed; for an absolute target it goes on with the name `t/r` from the
empty buffer. In both cases the run ends as that walk ends. -/
theorem qualify_link_restart (w : World) (s : QState) (m : Nat) (d l r : Path)
    (hcomp : s.comp ≠ []) (hwalk : s.walked = d ++ '/' :: l) (hsep : '/' ∉ l)
    (hl : w.lstat s.walked = .ok m) (hm : is_link m = true) (hrest : s.rest = some r)
    (hfit : (link_target w s.walked).length + r.length < w.MAXPATHLEN) :
    ((link_target w s.walked ≠ [] ∧ (link_target w s.walked).head? ≠ some '/') →
      (∃ log, qualify_step w s = .next ⟨link_target w s.walked ++ '/' :: r, d, log⟩) ∧
      ∀ fuel, (qualify_loop w (fuel + 1) s).map Run.out =
        (qualify_loop w fuel ⟨link_target w s.walked ++ '/' :: r, d, []⟩).map Run.out) ∧
    ((link_target w s.walked).head? = some '/' →
      (∃ log, qualify_step w s = .next ⟨link_target w s.walked ++ '/' :: r, [], log⟩) ∧
      ∀ fuel, (qualify_loop w (fuel + 1) s).map Run.out =
        (qualify_loop w fuel ⟨link_target w s.walked ++ '/' :: r, [], []⟩).map Run.out) := by
  have hw : s.walked ≠ [] := by rw [hwalk]; simp
  have hstep := qualify_step_link w s m (fun h => hcomp h.1) hw hl hm
  rw [hrest] at hstep
  unfold qualify_link at hstep
  simp only at hstep
  rw [if_neg (by omega)] at hstep
  have hcut : rindex_cut s.walked = d := by rw [hwalk]; exact rindex_cut_append l hsep d
  constructor
  · rintro ⟨hne, hrel⟩
    have hhead : (link_target w s.walked ++ '/' :: r).head? ≠ some '/' := by
      cases ht : link_target w s.walked with
      | nil => exact absurd ht hne
      | cons x xs => rw [ht] at hrel; simpa using hrel
    have hstep2 : qualify_step w s = .next ⟨link_target w s.walked ++ '/' :: r, d,
        s.log ++ [Event.lstat s.walked] ++ [Event.readlink s.walked]⟩ := by
      rw [hstep]
      simp only [link_name, hhead, ↓reduceIte, hcut]
    refine ⟨⟨_, hstep2⟩, ?_⟩
    intro fuel
    rw [qualify_loop_succ, hstep2]
    exact qualify_loop_out_log w fuel _ _ _
  · intro habs
    have hhead : (link_target w s.walked ++ '/' :: r).head? = some '/' := by
      cases ht : link_target w s.walked with
      | nil => rw [ht] at habs; simp at habs
      | cons x xs => rw [ht] at habs; simpa using habs
    have hstep2 : qualify_step w s = .next ⟨link_target w s.walked ++ '/' :: r, [],
        s.log ++ [Event.lstat s.walked] ++ [Event.readlink s.walked]⟩ := by
      rw [hstep]
      simp only [link_name, hhead, ↓reduceIte]
    refine ⟨⟨_, hstep2⟩, ?_⟩
    intro fuel
    rw [qualify_loop_succ, hstep2]
    exact qualify_loop_out_log w fuel _ _ _

theorem qualify_link_restart_witness :
    link_target w_link "/dd/l2".toList = "e".toList ∧
    (qualify_loop w_link 3 ⟨"l2/x".toList, "/dd".toList, []⟩).map Run.out =
      (qualify_loop w_link 2 ⟨"e/x".toList, "/dd".toList, []⟩).map Run.out ∧
    (qualify 9 w_link "/dd/l2/x".toList).map Run.out = some (.result "/dd/e/x".toList) ∧
    (qualify_loop w_link 4 ⟨"l/x".toList, [], []⟩).map Run.out =
      (qualify_loop w_link 3 ⟨"/dd/x".toList, [], []⟩).map Run.out ∧
    (qualify 9 w_link "/l/x".toList).map Run.out = some (.result "/dd/x".toList) :=
  ⟨by decide,
    ((qualify_link_restart w_link ⟨"l2/x".toList, "/dd".toList, []⟩ 0o120777 "/dd".toList
      "l2".toList "x".toList (by decide) (by decide) (by decide) (by decide) (by decide)
      (by decide) (by decide)).1 (by decide)).2 2,
    by decide,
    ((qualify_link_restart w_link ⟨"l/x".toList, [], []⟩ 0o120777 [] "l".toList "x".toList
      (by decide) (by decide) (by decide) (by decide) (by decide) (by decide)
      (by decide)).2 (by decide)).2 3,
    by decide⟩

/-- A link with an empty target and a suffix after it: the new name is `/x`, which begins with
`/`, so the buffer is emptied as for an absolute target and the walk goes on from the root. -/
theorem qualify_link_empty_target :
    link_target w_empty "/d/l".toList = [] ∧
    qualify_step w_empty ⟨"l/x".toList, "/d".toList, []⟩ =
      .next ⟨"/x".toList, [], [Event.lstat "/d/l".toList, Event.readlink "/d/l".toList]⟩ ∧
    (qualify 9 w_empty "/d/l/x".toList).map Run.out = some (.result "/x".toList) := by
  decide

/-! ## C13 -/

/-- C13: the buffer `full` can grow past `MAXPATHLEN`. With `MAXPATHLEN = 4`, the working
directory `/abc` (4 characters) and the relative path `x` (1 character), the first iteration
appends `/x` to the seed, the buffer holds the 6 characters of `/abc/x`, and that is what
`qualify` returns: no length is tested before the two `strcat` of lines 225-226. -/
theorem qualify_buffer_exceeds_maxpathlen :
    w_deep.MAXPATHLEN = 4 ∧ ("x".toList).length ≤ w_deep.MAXPATHLEN ∧
    w_deep.getwd = some "/abc".toList ∧ ("/abc".toList).length ≤ w_deep.MAXPATHLEN ∧
    qualify_start w_deep "x".toList [] =
      .next ⟨"x".toList, "/abc".toList, [Event.stat "x".toList, Event.getwd]⟩ ∧
    (⟨"x".toList, "/abc".toList, [Event.stat "x".toList, Event.getwd]⟩ : QState).walked =
      "/abc/x".toList ∧
    w_deep.MAXPATHLEN < ("/abc/x".toList).length ∧
    qualify 1 w_deep "x".toList =
      some ⟨.result "/abc/x".toList,
        [Event.stat "x".toList, Event.getwd, Event.lstat "/abc/x".toList]⟩ := by
  decide

/-! ## Environments that differ in the answers of stat -/

theorem qualify_loop_stat (w : World) (st : Path → StatResult) :
    ∀ (fuel : Nat) (s : QState),
      qualify_loop { w with stat := st } fuel s = qualify_loop w fuel s := by
  intro fuel
  induction fuel with
  | zero => intro s; rfl
  | succ k ih =>
    intro s
    rw [qualify_loop_succ, qualify_loop_succ]
    have hs : qualify_step { w with stat := st } s = qualify_step w s := rfl
    rw [hs]
    cases qualify_step w s with
    | next s1 => exact ih s1
    | done r => rfl

theorem qualify_no_working_directory (fuel : Nat) (w : World) (n : Path) (m : Nat)
    (hstat : w.stat n = .ok m) (hrel : n.head? ≠ some '/') (hwd : w.getwd = none) :
    qualify fuel w n = some ⟨.no_working_directory, [Event.stat n, Event.getwd]⟩ := by
  unfold qualify qualify_from qualify_start
  rw [hstat]
  simp only [hrel, ne_eq, not_false_eq_true, ↓reduceIte, hwd, List.nil_append]

theorem qualify_out_stat_congr (fuel : Nat) (w : World) (st : Path → StatResult) (n : Path)
    (h : (∃ m, w.stat n = .ok m) ↔ ∃ m, st n = .ok m) :
    (qualify fuel { w with stat := st } n).map Run.out = (qualify fuel w n).map Run.out := by
  cases h1 : w.stat n with
  | err e =>
    cases h2 : st n with
    | err e2 =>
      rw [qualify_stat_err fuel w n e h1, qualify_stat_err fuel { w with stat := st } n e2 h2]
    | ok m2 =>
      obtain ⟨m, hm⟩ := h.2 ⟨m2, h2⟩
      rw [h1] at hm
      exact StatResult.noConfusion hm
  | ok m =>
    cases h2 : st n with
    | err e2 =>
      obtain ⟨m2, hm⟩ := h.1 ⟨m, h1⟩
      rw [h2] at hm
      exact StatResult.noConfusion hm
    | ok m2 =>
      by_cases hn : n.head? = some '/'
      · rw [qualify_absolute_start fuel w n m h1 hn,
          qualify_absolute_start fuel { w with stat := st } n m2 h2 hn, qualify_loop_stat]
      · rcases Option.eq_none_or_eq_some w.getwd with hwd | ⟨wd, hwd⟩
        · rw [qualify_no_working_directory fuel w n m h1 hn hwd,
            qualify_no_working_directory fuel { w with stat := st } n m2 h2 hn hwd]
        · rw [qualify_relative_start fuel w n wd m h1 hn hwd,
            qualify_relative_start fuel { w with stat := st } n wd m2 h2 hn hwd,
            qualify_loop_stat]

theorem find_path_out_stat_congr (fuel : Nat) (w : World) (st : Path → StatResult)
    (file : Path) (hsucc : ∀ p, (∃ m, w.stat p = .ok m) ↔ ∃ m, st p = .ok m)
    (hexec : ∀ p, executable { w with stat := st } p = executable w p) :
    (find_path fuel { w with stat := st } file).map Run.out =
      (find_path fuel w file).map Run.out := by
  by_cases hlen : file.length ≤ w.MAXPATHLEN
  · by_cases hsep : '/' ∈ file
    · rw [find_path_separator_eq fuel w file hlen hsep,
        find_path_separator_eq fuel { w with stat := st } file hlen hsep]
      exact qualify_out_stat_congr fuel w st file (hsucc file)
    · rcases Option.eq_none_or_eq_some w.PATH with hpath | ⟨path, hpath⟩
      · unfold find_path
        simp only [hpath, hsep, if_neg (show ¬ file.length > w.MAXPATHLEN by omega)]
        rfl
      · rw [find_path_search_spec fuel w file path hlen hsep hpath,
          find_path_search_spec fuel { w with stat := st } file path hlen hsep hpath,
          search_spec_out, search_spec_out]
        have hfun : executable { w with stat := st } = executable w := funext hexec
        rw [hfun]
        cases (search_order file (split_on ':' path)).find? (executable w) with
        | none => rfl
        | some fn => exact qualify_out_stat_congr fuel w st fn (hsucc fn)
  · unfold find_path
    simp only [if_pos (show file.length > w.MAXPATHLEN by omega)]

/-! ## C16 -/

/-- C16: replacing the `errno` of failing `stat` queries by any other (the queries that succeed
keep their answer) does not change how `find_path` ends. In the walk over PATH a candidate whose
`stat` fails with `errno = e` is logged, followed by one `perror` when `e` is not ENOENT, ENOTDIR
or EINVAL, and the loop goes on with the tokens that are left. -/
theorem find_path_errno_independent (fuel : Nat) (w : World) (st : Path → StatResult)
    (file : Path) (hsame : ∀ p, same_up_to_errno (w.stat p) (st p)) :
    (find_path fuel { w with stat := st } file).map Run.out =
      (find_path fuel w file).map Run.out ∧
    (∀ (t : Path) (ts : List Path) (checkdot : Bool) (log : List Event) (e : Errno),
      ¬(t = [] ∨ t = ['.']) → w.stat (t ++ '/' :: file) = .err e →
      find_path_loop fuel w file (t :: ts) checkdot log =
        find_path_loop fuel w file ts checkdot
          (log ++ Event.stat (t ++ '/' :: file) ::
            (if unexpected e then [Event.perror .find_path_stat] else []))) := by
  have hcase : ∀ p, (∃ m, w.stat p = .ok m ∧ st p = .ok m) ∨
      (∃ e e2, w.stat p = .err e ∧ st p = .err e2) := by
    intro p
    have h := hsame p
    unfold same_up_to_errno at h
    cases h1 : w.stat p with
    | ok m =>
      cases h2 : st p with
      | ok m2 => rw [h1, h2] at h; simp only at h; exact Or.inl ⟨m, rfl, by rw [h]⟩
      | err e2 => rw [h1, h2] at h; exact h.elim
    | err e =>
      cases h2 : st p with
      | ok m2 => rw [h1, h2] at h; exact h.elim
      | err e2 => exact Or.inr ⟨e, e2, rfl, rfl⟩
  refine ⟨find_path_out_stat_congr fuel w st file ?_ ?_, ?_⟩
  · intro p
    rcases hcase p with ⟨m, h1, h2⟩ | ⟨e, e2, h1, h2⟩
    · exact ⟨fun _ => ⟨m, h2⟩, fun _ => ⟨m, h1⟩⟩
    · constructor
      · rintro ⟨m, hm⟩; rw [h1] at hm; exact StatResult.noConfusion hm
      · rintro ⟨m, hm⟩; rw [h2] at hm; exact StatResult.noConfusion hm
  · intro p
    rcases hcase p with ⟨m, h1, h2⟩ | ⟨e, e2, h1, h2⟩ <;> simp [executable, h1, h2]
  · intro t ts checkdot log e ht herr
    rw [find_path_loop, if_neg ht]
    simp only [herr]

theorem find_path_errno_independent_witness :
    (∀ p, same_up_to_errno (w_bin.stat p) (stat_eacces p)) ∧
    w_bin.stat "/usr/bin/ls".toList = .err .ENOENT ∧
    stat_eacces "/usr/bin/ls".toList = .err .EACCES ∧
    (find_path 3 { w_bin with stat := stat_eacces } "ls".toList).map Run.out =
      (find_path 3 w_bin "ls".toList).map Run.out ∧
    find_path 3 { w_bin with stat := stat_eacces } "ls".toList =
      some ⟨.result "/bin/ls".toList,
        [Event.getenv, Event.stat "/usr/bin/ls".toList, Event.perror .find_path_stat,
          Event.stat "/bin/ls".toList, Event.stat "/bin/ls".toList, Event.lstat "/bin".toList,
          Event.lstat "/bin/ls".toList]⟩ :=
  have hsame : ∀ p, same_up_to_errno (w_bin.stat p) (stat_eacces p) := fun p => by
    unfold same_up_to_errno
    simp only [w_bin, stat_eacces]
    split_ifs <;> trivial
  ⟨hsame, by decide, by decide,
    (find_path_errno_independent 3 w_bin stat_eacces "ls".toList hsame).1, by decide⟩

/-! ## C20 -/

/-- C20: changing mode bits outside `0111` in the answers of `stat` (failures keep their `errno`)
changes neither the candidate that is chosen in any list of candidates nor how `find_path` ends;
a candidate on which `stat` succeeds with one of the bits `0111` set is accepted whatever its file
type, a directory included. -/
theorem find_path_exec_bits_only (fuel : Nat) (w : World) (st : Path → StatResult)
    (file : Path) (hsame : ∀ p, same_exec_bits (w.stat p) (st p)) :
    (∀ cands : List Path,
      cands.find? (executable { w with stat := st }) = cands.find? (executable w)) ∧
    (find_path fuel { w with stat := st } file).map Run.out =
      (find_path fuel w file).map Run.out ∧
    (∀ fn m, w.stat fn = .ok m → m &&& S_IFMT = S_IFDIR → m &&& 0o111 ≠ 0 →
      executable w fn = true) := by
  have hcase : ∀ p, (∃ m m2, w.stat p = .ok m ∧ st p = .ok m2 ∧ m &&& 0o111 = m2 &&& 0o111) ∨
      (∃ e, w.stat p = .err e ∧ st p = .err e) := by
    intro p
    have h := hsame p
    unfold same_exec_bits at h
    cases h1 : w.stat p with
    | ok m =>
      cases h2 : st p with
      | ok m2 => rw [h1, h2] at h; exact Or.inl ⟨m, m2, rfl, rfl, h⟩
      | err e2 => rw [h1, h2] at h; exact h.elim
    | err e =>
      cases h2 : st p with
      | ok m2 => rw [h1, h2] at h; exact h.elim
      | err e2 => rw [h1, h2] at h; simp only at h; exact Or.inr ⟨e, rfl, by rw [h]⟩
  have hexec : ∀ p, executable { w with stat := st } p = executable w p := by
    intro p
    rcases hcase p with ⟨m, m2, h1, h2, hb⟩ | ⟨e, h1, h2⟩
    · simp [executable, h1, h2, has_exec_bit, hb]
    · simp [executable, h1, h2]
  refine ⟨?_, find_path_out_stat_congr fuel w st file ?_ hexec, ?_⟩
  · intro cands
    rw [show executable { w with stat := st } = executable w from funext hexec]
  · intro p
    rcases hcase p with ⟨m, m2, h1, h2, _⟩ | ⟨e, h1, h2⟩
    · exact ⟨fun _ => ⟨m2, h2⟩, fun _ => ⟨m, h1⟩⟩
    · constructor
      · rintro ⟨m, hm⟩; rw [h1] at hm; exact StatResult.noConfusion hm
      · rintro ⟨m, hm⟩; rw [h2] at hm; exact StatResult.noConfusion hm
  · intro fn m hstat _ hbits
    simp [executable, hstat, has_exec_bit, hbits]

theorem find_path_exec_bits_only_witness :
    (∀ p, same_exec_bits (w_bin.stat p) (stat_directory p)) ∧
    stat_directory "/bin/ls".toList = .ok 0o040755 ∧ 0o040755 &&& S_IFMT = S_IFDIR ∧
    (find_path 3 { w_bin with stat := stat_directory } "ls".toList).map Run.out =
      (find_path 3 w_bin "ls".toList).map Run.out ∧
    (find_path 3 { w_bin with stat := stat_directory } "ls".toList).map Run.out =
      some (.result "/bin/ls".toList) :=
  have hsame : ∀ p, same_exec_bits (w_bin.stat p) (stat_directory p) := fun p => by
    unfold same_exec_bits
    simp only [w_bin, stat_directory]
    split_ifs
    · decide
    · trivial
  ⟨hsame, by decide, by decide,
    (find_path_exec_bits_only 3 w_bin stat_directory "ls".toList hsame).2.1, by decide⟩

/-! ## C17 -/

theorem join_path_cons (c : Path) (cs : List Path) :
    join_path (c :: cs) = '/' :: (c ++ join_path cs) := by
  simp [join_path]

theorem split_on_join_path (tl : Path) (htl : '/' ∉ tl) :
    ∀ (cs : List Path) (c : Path), '/' ∉ c → (∀ x ∈ cs, '/' ∉ x) →
      split_on '/' (c ++ (join_path cs ++ '/' :: tl)) = c :: cs ++ [tl] ∧
      split_on '/' (c ++ join_path cs) = c :: cs := by
  intro cs
  induction cs with
  | nil =>
    intro c hc _
    constructor
    · simp [join_path, split_on_append, split_on_no_sep '/' c hc, split_on_no_sep '/' tl htl]
    · simp [join_path, split_on_no_sep '/' c hc]
  | cons x xs ih =>
    intro c hc hall
    obtain ⟨ih1, ih2⟩ := ih x (hall x (List.mem_cons_self x xs))
      (fun y hy => hall y (List.mem_cons_of_mem x hy))
    constructor
    · rw [join_path_cons, List.cons_append, split_on_append, split_on_no_sep '/' c hc,
        List.append_assoc, ih1]
      simp
    · rw [join_path_cons, split_on_append, split_on_no_sep '/' c hc, ih2]
      simp

theorem join_path_no_double_sep (tl : Path) (htl : tl = [] ∨ tl = ['/']) :
    ∀ cs : List Path, (∀ x ∈ cs, x ≠ [] ∧ '/' ∉ x) →
      ∀ a b : Path, join_path cs ++ tl ≠ a ++ '/' :: '/' :: b := by
  intro cs
  induction cs with
  | nil =>
    intro _ a b h
    have hlen := congrArg List.length h
    rcases htl with h1 | h1 <;> subst h1 <;> simp [join_path] at hlen <;> omega
  | cons x xs ih =>
    intro hall a b h
    obtain ⟨hx, hxs⟩ := hall x (List.mem_cons_self x xs)
    have hrest := ih (fun y hy => hall y (List.mem_cons_of_mem x hy))
    rw [join_path_cons, List.cons_append, List.append_assoc] at h
    cases a with
    | nil =>
      simp only [List.nil_append, List.cons.injEq, true_and] at h
      cases x with
      | nil => exact hx rfl
      | cons y ys =>
        simp only [List.cons_append, List.cons.injEq] at h
        exact hxs (by rw [h.1]; simp)
    | cons a0 as =>
      simp only [List.cons_append, List.cons.injEq] at h
      rcases List.append_eq_append_iff.1 h.2 with ⟨u, hu, hu2⟩ | ⟨v, hv, hv2⟩
      · exact hrest u b hu2
      · cases v with
        | nil =>
          simp only [List.nil_append] at hv2
          cases xs with
          | nil =>
            have hlen := congrArg List.length hv2
            rcases htl with h1 | h1 <;> subst h1 <;> simp [join_path] at hlen
          | cons z zs =>
            rw [join_path_cons] at hv2
            simp only [List.cons_append, List.cons.injEq, true_and] at hv2
            obtain ⟨hz, hzs⟩ := hall z (by simp)
            cases z with
            | nil => exact hz rfl
            | cons z0 z1 =>
              simp only [List.cons_append, List.cons.injEq] at hv2
              exact hzs (by rw [← hv2.1]; simp)
        | cons v0 vs =>
          simp only [List.cons_append, List.cons.injEq] at hv2
          exact hxs (by rw [hv, ← hv2.1]; simp)

theorem stems_of_trailing (p q : Path) (h : q ∈ stems p) : q ∈ stems (p ++ ['/']) := by
  rw [mem_stems] at h ⊢
  obtain ⟨hne, h | ⟨r, hr⟩⟩ := h
  · exact ⟨hne, Or.inr ⟨[], by rw [h]⟩⟩
  · exact ⟨hne, Or.inr ⟨r ++ ['/'], by rw [hr]; simp⟩⟩

/-- C18: for `n ≥ 1` components `cs`, none empty, none holding a `/`, none `.` or `..`, when
`stat` succeeds on both spellings and `lstat` reports every initial segment of `/c1/.../cn/` as
existing and not a link, `qualify("/c1/.../cn/")` returns `/c1/.../cn/`, the final `/` kept,
and `qualify("/c1/.../cn")` returns `/c1/.../cn`, which is another string. -/
theorem qualify_keeps_trailing_separator (w : World) (cs : List Path) (m1 m2 fuel : Nat)
    (hcs : cs ≠ [])
    (hord : ∀ c ∈ cs, c ≠ [] ∧ '/' ∉ c ∧ c ≠ ['.'] ∧ c ≠ ['.', '.'])
    (hstat1 : w.stat (join_path cs ++ ['/']) = .ok m1)
    (hstat2 : w.stat (join_path cs) = .ok m2)
    (hq : ∀ q ∈ stems (join_path cs ++ ['/']), not_link w q = true)
    (hf : (join_path cs).length + 2 ≤ fuel) :
    (qualify fuel w (join_path cs ++ ['/'])).map Run.out =
      some (.result (join_path cs ++ ['/'])) ∧
    (qualify fuel w (join_path cs)).map Run.out = some (.result (join_path cs)) ∧
    join_path cs ++ ['/'] ≠ join_path cs := by
  have hnosep : ∀ x ∈ cs, '/' ∉ x := fun x hx => (hord x hx).2.1
  have hsplit := split_on_join_path [] (by simp) cs [] (by simp) hnosep
  simp only [List.nil_append] at hsplit
  have hhead : (join_path cs).head? = some '/' := by
    cases cs with
    | nil => exact absurd rfl hcs
    | cons c cs1 => rw [join_path_cons]; rfl
  have hhead1 : (join_path cs ++ ['/']).head? = some '/' := by
    cases hj : join_path cs with
    | nil => rw [hj] at hhead; simp at hhead
    | cons y ys => rw [hj] at hhead; simpa using hhead
  have hdot2 : no_dot_component (join_path cs) := by
    intro c hc
    rw [hsplit.2] at hc
    rcases List.mem_cons.1 hc with h | h
    · subst h; simp
    · exact (hord c h).2.2
  have hdot1 : no_dot_component (join_path cs ++ ['/']) := by
    intro c hc
    rw [hsplit.1] at hc
    simp only [List.cons_append, List.mem_cons, List.mem_append, List.not_mem_nil,
      or_false] at hc
    rcases hc with h | h | h
    · subst h; simp
    · exact (hord c h).2.2
    · subst h; simp
  have hall : ∀ x ∈ cs, x ≠ [] ∧ '/' ∉ x := fun x hx => ⟨(hord x hx).1, (hord x hx).2.1⟩
  have hne1 : ¬ ['/', '/'] <:+: (join_path cs ++ ['/']) := by
    rintro ⟨a, b, hab⟩
    exact join_path_no_double_sep ['/'] (Or.inr rfl) cs hall a b (by rw [← hab]; simp)
  have hne2 : ¬ ['/', '/'] <:+: join_path cs := by
    rintro ⟨a, b, hab⟩
    exact join_path_no_double_sep [] (Or.inl rfl) cs hall a b (by rw [← hab]; simp)
  refine ⟨?_, ?_, ?_⟩
  · exact qualify_fixed w _ m1 hstat1 hhead1 hdot1 hne1 hq fuel (by simp; omega)
  · exact qualify_fixed w _ m2 hstat2 hhead hdot2 hne2
      (fun q hq2 => hq q (stems_of_trailing _ q hq2)) fuel (by omega)
  · intro h
    have hlen := congrArg List.length h
    simp at hlen

theorem qualify_keeps_trailing_separator_witness :
    join_path ["usr".toList, "bin".toList] = "/usr/bin".toList ∧
    (qualify 10 w_root "/usr/bin/".toList).map Run.out = some (.result "/usr/bin/".toList) ∧
    (qualify 10 w_root "/usr/bin".toList).map Run.out = some (.result "/usr/bin".toList) :=
  have h := qualify_keeps_trailing_separator w_root ["usr".toList, "bin".toList] 0o100755
    0o100755 10 (by decide) (by decide) rfl rfl (by decide) (by decide)
  ⟨by decide, h.1, h.2.1⟩

/-! ## C19 -/

end FindPath
